import Mathlib

/-!
# Verification of the Mind-Map state core

Shallow embedding of the state-management core of the Mind-Map-Builder
repository (src/Mind-Map/src/App.tsx together with the data model in
src/Mind-Map/src/types/MindMap.ts): the node store, the tree operations
`handleAddChild`, `handleUpdateNode`, `handleDeleteNode`, and the linear
undo/redo history (`addToHistory`, `handleUndo`, `handleRedo`).

Conventions of the embedding:
* The JavaScript object holding the nodes (`{ [id]: MindMapNode }`) is an
  association list `List (String × MindMapNode)`; object-spread updates are
  `upsert` (replace the binding in place, or append a new one) and `delete`
  is `eraseKey`.
* Operations return `Option MindMap`; `none` models a thrown TypeError
  (dereferencing `undefined`) or, for the recursive cascade delete, the
  unbounded recursion of the source on cyclic data.  In the React app a
  throw inside the `setMindMap` updater leaves the state unchanged.
* `Date.now()`-generated identifiers are passed in as an explicit `newId`
  argument; the source does not guarantee their freshness.
* Numeric coordinates are `Int` (no claim depends on non-integral values).
-/

structure Position where
  x : Int
  y : Int
deriving DecidableEq

/-- A free-form connection; the source field `end` is a Lean keyword and is
renamed `endId` here. -/
structure Connection where
  start : String
  endId : String
  label : Option String
  color : Option String
deriving DecidableEq

structure MindMapNode where
  id : String
  text : String
  parentId : Option String
  children : List String
  color : String
  position : Position
  isExpanded : Bool
  shape : String
  fontSize : Option Int
  textColor : Option String
deriving DecidableEq

abbrev NodeMap := List (String × MindMapNode)

structure MindMap where
  nodes : NodeMap
  rootId : String
  connections : List Connection
deriving DecidableEq

/-- A `Partial<MindMapNode>`: each field is `none` when the key is absent
from the update object.  For the fields whose value is itself nullable or
optional in TypeScript the payload is again an `Option`. -/
structure NodeUpdates where
  idField : Option String
  textField : Option String
  parentIdField : Option (Option String)
  childrenField : Option (List String)
  colorField : Option String
  positionField : Option Position
  isExpandedField : Option Bool
  shapeField : Option String
  fontSizeField : Option (Option Int)
  textColorField : Option (Option String)
deriving DecidableEq

def noUpdates : NodeUpdates :=
  ⟨none, none, none, none, none, none, none, none, none, none⟩

/-- Shallow merge `{...n, ...u}`. -/
def mergeNode (n : MindMapNode) (u : NodeUpdates) : MindMapNode where
  id := u.idField.getD n.id
  text := u.textField.getD n.text
  parentId := match u.parentIdField with
    | some v => v
    | none => n.parentId
  children := u.childrenField.getD n.children
  color := u.colorField.getD n.color
  position := u.positionField.getD n.position
  isExpanded := u.isExpandedField.getD n.isExpanded
  shape := u.shapeField.getD n.shape
  fontSize := match u.fontSizeField with
    | some v => v
    | none => n.fontSize
  textColor := match u.textColorField with
    | some v => v
    | none => n.textColor

/-- `{...updates}` applied to `undefined`: the source produces an object
holding only the updated fields.  The typed model fills the missing fields
with inert defaults; no claim observes them. -/
def junkNode : MindMapNode where
  id := ""
  text := ""
  parentId := none
  children := []
  color := ""
  position := ⟨0, 0⟩
  isExpanded := false
  shape := ""
  fontSize := none
  textColor := none

/-! ## Association-list primitives -/

def lookupN : NodeMap → String → Option MindMapNode
  | [], _ => none
  | (k, v) :: t, key => if k = key then some v else lookupN t key

/-- Object-spread update `{...nodes, [k]: v}`: replace the binding of `k`
in place, or append it when absent. -/
def upsert : NodeMap → String → MindMapNode → NodeMap
  | [], k, v => [(k, v)]
  | (k0, v0) :: t, k, v =>
    if k0 = k then (k, v) :: t else (k0, v0) :: upsert t k v

/-- `delete nodes[k]`. -/
def eraseKey : NodeMap → String → NodeMap
  | [], _ => []
  | (k0, v0) :: t, k =>
    if k0 = k then eraseKey t k else (k0, v0) :: eraseKey t k

/-- `list.filter(id => id !== x)`. -/
def filterOut (x : String) : List String → List String
  | [] => []
  | y :: t => if y = x then filterOut x t else y :: filterOut x t

/-- Number of occurrences of `x`. -/
def countOcc (x : String) : List String → Nat
  | [] => 0
  | y :: t => (if y = x then 1 else 0) + countOcc x t

/-! ## Tree operations (App.tsx) -/

/-- `handleAddChild` (App.tsx 95-128).  The `Date.now()`-generated
identifier is the explicit argument `newId`. -/
def handleAddChild (m : MindMap) (parentKey : String) (newId : String) :
    Option MindMap :=
  match lookupN m.nodes parentKey with
  | none => none
  | some parentNode =>
    let childPosition : Position :=
      ⟨parentNode.position.x + 200,
       parentNode.position.y + (parentNode.children.length : Int) * 100⟩
    let newNode : MindMapNode :=
      { id := newId
        text := "New Idea"
        parentId := some parentKey
        children := []
        color := parentNode.color
        position := childPosition
        isExpanded := true
        shape := parentNode.shape
        fontSize := none
        textColor := none }
    let parentNode1 := { parentNode with children := parentNode.children ++ [newId] }
    some { m with nodes := upsert (upsert m.nodes newId newNode) parentKey parentNode1 }

/-- Reparent, first step (App.tsx 139-146): remove the node from the old
parent's children.  The source guard `if (oldParentId)` is a JavaScript
truthiness test, so the empty string — like null/undefined — skips the
removal; a non-empty absent old parent makes the source throw. -/
def updStep1 (m : MindMap) (nodeId : String) (n : MindMapNode) : Option NodeMap :=
  match n.parentId with
  | none => some m.nodes
  | some oldPid =>
    if oldPid = "" then some m.nodes
    else
      match lookupN m.nodes oldPid with
      | none => none
      | some oldParent =>
        some (upsert m.nodes oldPid
          { oldParent with children := filterOut nodeId oldParent.children })

/-- Reparent, second step (App.tsx 148-155): append the node to the new
parent's children.  `if (newParentId)` is a truthiness test: the empty
string skips the append; a non-empty absent new parent makes the source
throw. -/
def updStep2 (nodeId : String) (np : Option String) (n1 : NodeMap) : Option NodeMap :=
  match np with
  | none => some n1
  | some p =>
    if p = "" then some n1
    else
      match lookupN n1 p with
      | none => none
      | some newParent =>
        some (upsert n1 p { newParent with children := newParent.children ++ [nodeId] })

/-- `handleUpdateNode` (App.tsx 130-187). -/
def handleUpdateNode (m : MindMap) (nodeId : String) (u : NodeUpdates) :
    Option MindMap :=
  match u.parentIdField with
  | some newPid =>
    match lookupN m.nodes nodeId with
    | none => none
    | some n =>
      if newPid = n.parentId then
        -- the source comparison with the current parentId is false
        some { m with nodes := upsert m.nodes nodeId (mergeNode n u) }
      else
        (updStep1 m nodeId n).bind fun n1 =>
          (updStep2 nodeId newPid n1).map fun n2 =>
            { m with nodes := upsert n2 nodeId (mergeNode ((lookupN n2 nodeId).getD junkNode) u) }
  | none =>
    -- simple update; for an absent nodeId the source creates an object
    -- holding only the updated fields (see junkNode)
    some { m with nodes := upsert m.nodes nodeId (mergeNode ((lookupN m.nodes nodeId).getD junkNode) u) }

/-- The recursion of `deleteNodeAndChildren` (App.tsx 201-205), fuelled.
For every node in the list: recursively delete its subtree, then erase it.
An absent node models the TypeError the source throws on
`undefined.children`; exhausted fuel models the unbounded recursion of the
source on cyclic data. -/
def deleteList : Nat → List String → NodeMap → Option NodeMap
  | _, [], nodes => some nodes
  | 0, _ :: _, _ => none
  | fuel + 1, c :: rest, nodes =>
    match lookupN nodes c with
    | none => none
    | some n =>
      match deleteList fuel n.children nodes with
      | none => none
      | some ns => deleteList fuel rest (eraseKey ns c)

/-- The fold in the promote branch (App.tsx 212-217): give every direct
child the new parent id.  An absent child does not make the source throw:
`{...undefined, parentId}` builds an object holding only the parentId
(see junkNode for the inert defaults of the typed model). -/
def promoteChildren (pid : Option String) : List String → NodeMap → NodeMap
  | [], nodes => nodes
  | c :: rest, nodes =>
    match lookupN nodes c with
    | none => promoteChildren pid rest (upsert nodes c { junkNode with parentId := pid })
    | some cn => promoteChildren pid rest (upsert nodes c { cn with parentId := pid })

/-- The promote branch of the non-cascading delete (App.tsx 207-226):
move the children to the parent.  The guard
`if (node.parentId && node.children.length > 0)` tests truthiness, so an
empty-string parent id skips the whole block; `parentNode` is captured
before the children are promoted, exactly as in the source, and a
non-empty absent parent makes the source throw on
`parentNode.children.filter`. -/
def promoteStep (m : MindMap) (nodeId : String) (node : MindMapNode) : Option NodeMap :=
  match node.parentId, node.children with
  | some pid, _ :: _ =>
    if pid = "" then some m.nodes
    else
      match lookupN m.nodes pid with
      | none => none
      | some parentNode =>
        some (upsert (promoteChildren node.parentId node.children m.nodes) pid
          { parentNode with children := filterOut nodeId parentNode.children ++ node.children })
  | _, _ => some m.nodes

/-- The shared final block of delete (App.tsx 231-238): drop the deleted
id from its former parent's children list.  `if (node.parentId)` is a
truthiness test: an empty-string parent id skips the filter; a non-empty
absent parent makes the source throw. -/
def deleteFinal (m : MindMap) (nodeId : String) (node : MindMapNode) (nn : NodeMap) :
    Option MindMap :=
  match node.parentId with
  | none => some { m with nodes := nn }
  | some pid =>
    if pid = "" then some { m with nodes := nn }
    else
      match lookupN nn pid with
      | none => none
      | some parent =>
        some { m with nodes := upsert nn pid { parent with children := filterOut nodeId parent.children } }

/-- `handleDeleteNode` (App.tsx 189-248). -/
def handleDeleteNode (m : MindMap) (nodeId : String) (deleteChildren : Bool) :
    Option MindMap :=
  if nodeId = m.rootId then some m
  else
    match lookupN m.nodes nodeId with
    | none => none
    | some node =>
      let step1 : Option NodeMap :=
        if deleteChildren then
          deleteList (m.nodes.length + 1) [nodeId] m.nodes
        else
          (promoteStep m nodeId node).map fun n1 => eraseKey n1 nodeId
      step1.bind (deleteFinal m nodeId node)

/-! ## Undo/redo history (App.tsx 44-92)

The app keeps the snapshot list, the index, and the current map.  Every
mutation handler calls `setMindMap(newMap)` together with
`addToHistory(newMap)`; the pair is modelled as one `addToHistory` step
that also sets `current`. -/

structure AppHistory where
  snaps : List MindMap
  index : Nat
  current : MindMap
deriving DecidableEq

/-- The default map built in App.tsx 22-37 (the object literal has no
`connections` field; it behaves as the empty list). -/
def defaultMindMap : MindMap where
  nodes := [("root",
    { id := "root"
      text := "Central Idea"
      parentId := none
      children := []
      color := "#C6DEF1"
      position := ⟨0, 0⟩
      isExpanded := true
      shape := "rectangle"
      fontSize := none
      textColor := none })]
  rootId := "root"
  connections := []

/-- The mount effect (App.tsx 51-56): history `[mindMap]`, index 0. -/
def initialHistory (m : MindMap) : AppHistory where
  snaps := [m]
  index := 0
  current := m

/-- `addToHistory` (App.tsx 70-78) combined with the accompanying
`setMindMap(newState)`. -/
def addToHistory (h : AppHistory) (s : MindMap) : AppHistory where
  snaps := h.snaps.take (h.index + 1) ++ [s]
  index := h.index + 1
  current := s

/-- `handleUndo` (App.tsx 80-85). -/
def handleUndo (h : AppHistory) : AppHistory :=
  if 0 < h.index then
    { snaps := h.snaps
      index := h.index - 1
      current := h.snaps.getD (h.index - 1) defaultMindMap }
  else h

/-- `handleRedo` (App.tsx 87-92). -/
def handleRedo (h : AppHistory) : AppHistory :=
  if h.index < h.snaps.length - 1 then
    { snaps := h.snaps
      index := h.index + 1
      current := h.snaps.getD (h.index + 1) defaultMindMap }
  else h

/-- `canUndo` (App.tsx 60). -/
def canUndo (h : AppHistory) : Bool := decide (0 < h.index)

/-- `canRedo` (App.tsx 61). -/
def canRedo (h : AppHistory) : Bool := decide (h.index < h.snaps.length - 1)

/-- `commit` called once per element, left to right. -/
def commitAll (h : AppHistory) (l : List MindMap) : AppHistory :=
  l.foldl addToHistory h

/-- A user-driven sequence of undo (`true`) / redo (`false`) clicks. -/
def undoRedoStep (h : AppHistory) (b : Bool) : AppHistory :=
  if b then handleUndo h else handleRedo h

def applyUndoRedo (h : AppHistory) (l : List Bool) : AppHistory :=
  l.foldl undoRedoStep h

/-- `handleUndo` clicked `k` times. -/
def undoTimes : Nat → AppHistory → AppHistory
  | 0, h => h
  | k + 1, h => handleUndo (undoTimes k h)

/-! ## History lemmas -/

theorem getD_mem {α : Type} : ∀ (l : List α) (i : Nat) (d : α), i < l.length → l.getD i d ∈ l
  | [], i, _, h => absurd h (by simp)
  | a :: t, 0, d, _ => by simp [List.getD]
  | a :: t, i + 1, d, h => by
    have := getD_mem t i d (by simpa using h)
    simp [List.getD] at this ⊢
    exact Or.inr this

theorem commitAll_eq (l : List MindMap) : ∀ h : AppHistory,
    h.index + 1 = h.snaps.length →
    commitAll h l = ⟨h.snaps ++ l, h.index + l.length, l.getLastD h.current⟩ := by
  induction l with
  | nil => intro h htop; simp [commitAll]
  | cons s t ih =>
    intro h htop
    have ht : h.snaps.take (h.index + 1) = h.snaps := by
      rw [htop]; exact List.take_length h.snaps
    have hstep : addToHistory h s = ⟨h.snaps ++ [s], h.index + 1, s⟩ := by
      simp [addToHistory, ht]
    have h2 : commitAll h (s :: t) = commitAll ⟨h.snaps ++ [s], h.index + 1, s⟩ t := by
      show commitAll (addToHistory h s) t = _
      rw [hstep]
    rw [h2, ih ⟨h.snaps ++ [s], h.index + 1, s⟩ (by simp; omega)]
    simp only [List.getLastD_cons, List.append_assoc, List.singleton_append,
      AppHistory.mk.injEq, List.length_cons]
    exact ⟨trivial, by omega, trivial⟩

theorem undoTimes_eq : ∀ (k : Nat) (h : AppHistory), k ≤ h.index →
    undoTimes k h = ⟨h.snaps, h.index - k,
      if k = 0 then h.current else h.snaps.getD (h.index - k) defaultMindMap⟩ := by
  intro k
  induction k with
  | zero => intro h _; simp [undoTimes]
  | succ k ih =>
    intro h hk
    have h1 : undoTimes (k + 1) h = handleUndo (undoTimes k h) := rfl
    rw [h1, ih h (by omega)]
    have hpos : 0 < h.index - k := by omega
    simp only [handleUndo, hpos, if_pos]
    have : h.index - k - 1 = h.index - (k + 1) := by omega
    simp [this]

theorem applyUndoRedo_snaps (l : List Bool) : ∀ h : AppHistory,
    (applyUndoRedo h l).snaps = h.snaps := by
  induction l with
  | nil => intro h; rfl
  | cons b t ih =>
    intro h
    have h1 : applyUndoRedo h (b :: t) = applyUndoRedo (undoRedoStep h b) t := rfl
    rw [h1, ih]
    rcases b <;> simp [undoRedoStep, handleUndo, handleRedo] <;> split <;> rfl

theorem applyUndoRedo_current_mem (l : List Bool) : ∀ h : AppHistory,
    h.current ∈ h.snaps → h.index < h.snaps.length →
    (applyUndoRedo h l).current ∈ h.snaps ∧ (applyUndoRedo h l).index < h.snaps.length := by
  induction l with
  | nil => intro h hc hi; exact ⟨hc, hi⟩
  | cons b t ih =>
    intro h hc hi
    have h1 : applyUndoRedo h (b :: t) = applyUndoRedo (undoRedoStep h b) t := rfl
    have hsn : (undoRedoStep h b).snaps = h.snaps := by
      rcases b <;> simp [undoRedoStep, handleUndo, handleRedo] <;> split <;> rfl
    have hkey : (undoRedoStep h b).current ∈ h.snaps ∧ (undoRedoStep h b).index < h.snaps.length := by
      rcases b with _ | _
      · simp only [undoRedoStep, handleRedo, if_false, Bool.false_eq_true]
        split
        · refine ⟨getD_mem _ _ _ (by omega), by simp; omega⟩
        · exact ⟨hc, hi⟩
      · simp only [undoRedoStep, handleUndo, if_true]
        split
        · refine ⟨getD_mem _ _ _ (by omega), by simp; omega⟩
        · exact ⟨hc, hi⟩
    rw [h1]
    have hk1 : (undoRedoStep h b).current ∈ (undoRedoStep h b).snaps := by
      rw [hsn]; exact hkey.1
    have hk2 : (undoRedoStep h b).index < (undoRedoStep h b).snaps.length := by
      rw [hsn]; exact hkey.2
    have h3 := ih (undoRedoStep h b) hk1 hk2
    rw [hsn] at h3
    exact h3

/-! ## Claim C4 -/

/-- C4: deleting the root id is rejected and the map is returned unchanged
(the source has no error channel; rejection is the silent early return of
the input map). -/
theorem c4_delete_root_rejected (m : MindMap) (b : Bool) :
    handleDeleteNode m m.rootId b = some m := by
  simp [handleDeleteNode]

/-! ## Claim C5 -/

def ghostTextUpdate : NodeUpdates := { noUpdates with textField := some "hi" }

/-- C5 (code bug): updating an absent node id is not aborted: when the
update object has no parentId key the source inserts a fresh partial node
under the absent id, so the map changes.  (addChild on an absent id does
abort by throwing, with the map unchanged.) -/
theorem c5_notfound_violated :
    lookupN defaultMindMap.nodes "ghost" = none ∧
    handleAddChild defaultMindMap "ghost" "node-1" = none ∧
    handleUpdateNode defaultMindMap "ghost" ghostTextUpdate ≠ none ∧
    handleUpdateNode defaultMindMap "ghost" ghostTextUpdate ≠ some defaultMindMap ∧
    (handleUpdateNode defaultMindMap "ghost" ghostTextUpdate).bind
      (fun m2 => lookupN m2.nodes "ghost") ≠ none := by
  refine ⟨rfl, rfl, ?_, ?_, ?_⟩ <;> decide

/-! ## Claim C8 -/

/-- C8 (counterexample): with n = 1 commit and k = 0 undos (k ≤ n), canRedo
is false, not true as claimed. -/
theorem c8_counterexample :
    canRedo (undoTimes 0 (commitAll (initialHistory defaultMindMap) [defaultMindMap])) = false := by
  decide

/-- C8 (amended): after n commits and k undos with 1 ≤ k ≤ n, canRedo is
true and the current snapshot is snapshot n-k, numbering the initial
snapshot 0 and the j-th committed snapshot j. -/
theorem c8_amended (m0 : MindMap) (l : List MindMap) (k : Nat)
    (hk1 : 1 ≤ k) (hk2 : k ≤ l.length) :
    canRedo (undoTimes k (commitAll (initialHistory m0) l)) = true ∧
    (undoTimes k (commitAll (initialHistory m0) l)).current
      = (m0 :: l).getD (l.length - k) defaultMindMap := by
  have hc : commitAll (initialHistory m0) l = ⟨m0 :: l, l.length, l.getLastD m0⟩ := by
    have := commitAll_eq l (initialHistory m0) (by simp [initialHistory])
    simpa [initialHistory] using this
  rw [hc]
  rw [undoTimes_eq k ⟨m0 :: l, l.length, l.getLastD m0⟩ (by simpa using hk2)]
  have hk0 : ¬ k = 0 := by omega
  constructor
  · simp [canRedo]
    omega
  · simp [hk0]

/-- Witness for C8 (amended) at n = 1, k = 1. -/
theorem c8_amended_witness :
    1 ≤ 1 ∧ 1 ≤ [defaultMindMap].length ∧
    (canRedo (undoTimes 1 (commitAll (initialHistory defaultMindMap) [defaultMindMap])) = true ∧
     (undoTimes 1 (commitAll (initialHistory defaultMindMap) [defaultMindMap])).current
       = (defaultMindMap :: [defaultMindMap]).getD ([defaultMindMap].length - 1) defaultMindMap) :=
  ⟨by decide, by decide, c8_amended defaultMindMap [defaultMindMap] 1 (by decide) (by decide)⟩

/-! ## Claim C9 -/

/-- C9: commit truncates the snapshots to S[0..i], appends the new
snapshot and increments the index; afterwards canRedo is false, and every
state reachable by undo/redo clicks keeps exactly the truncated snapshot
list, with the current map always one of its elements — the discarded
entries are unreachable. -/
theorem c9_commit_truncates (h : AppHistory) (s : MindMap)
    (hix : h.index < h.snaps.length) :
    (addToHistory h s).snaps = h.snaps.take (h.index + 1) ++ [s] ∧
    (addToHistory h s).index = h.index + 1 ∧
    canRedo (addToHistory h s) = false ∧
    ∀ l : List Bool,
      (applyUndoRedo (addToHistory h s) l).snaps = h.snaps.take (h.index + 1) ++ [s] ∧
      (applyUndoRedo (addToHistory h s) l).current ∈ h.snaps.take (h.index + 1) ++ [s] := by
  refine ⟨rfl, rfl, ?_, ?_⟩
  · simp [canRedo, addToHistory]
  · intro l
    have hs : (addToHistory h s).snaps = h.snaps.take (h.index + 1) ++ [s] := rfl
    have hmem : (addToHistory h s).current ∈ (addToHistory h s).snaps := by
      simp [addToHistory]
    have hix2 : (addToHistory h s).index < (addToHistory h s).snaps.length := by
      simp [addToHistory]
      omega
    have := applyUndoRedo_current_mem l (addToHistory h s) hmem hix2
    exact ⟨by rw [applyUndoRedo_snaps l (addToHistory h s), hs], by rw [← hs]; exact this.1⟩

/-- Witness for C9 at the initial history. -/
theorem c9_commit_truncates_witness :
    (initialHistory defaultMindMap).index < (initialHistory defaultMindMap).snaps.length ∧
    ((addToHistory (initialHistory defaultMindMap) defaultMindMap).snaps
       = (initialHistory defaultMindMap).snaps.take ((initialHistory defaultMindMap).index + 1)
         ++ [defaultMindMap] ∧
     (addToHistory (initialHistory defaultMindMap) defaultMindMap).index
       = (initialHistory defaultMindMap).index + 1 ∧
     canRedo (addToHistory (initialHistory defaultMindMap) defaultMindMap) = false ∧
     ∀ l : List Bool,
       (applyUndoRedo (addToHistory (initialHistory defaultMindMap) defaultMindMap) l).snaps
         = (initialHistory defaultMindMap).snaps.take ((initialHistory defaultMindMap).index + 1)
           ++ [defaultMindMap] ∧
       (applyUndoRedo (addToHistory (initialHistory defaultMindMap) defaultMindMap) l).current
         ∈ (initialHistory defaultMindMap).snaps.take ((initialHistory defaultMindMap).index + 1)
           ++ [defaultMindMap]) :=
  ⟨by decide, c9_commit_truncates (initialHistory defaultMindMap) defaultMindMap (by decide)⟩

/-! ## Claim C10 -/

/-- C10: on any app-reachable history state (the current map is the
indexed snapshot, the index is in range), undo and redo leave the snapshot
sequence unchanged and the resulting current map is an element of it. -/
theorem c10_undo_redo_frame (h : AppHistory)
    (hcur : h.current = h.snaps.getD h.index defaultMindMap)
    (hix : h.index < h.snaps.length) :
    (handleUndo h).snaps = h.snaps ∧ (handleRedo h).snaps = h.snaps ∧
    (handleUndo h).current ∈ h.snaps ∧ (handleRedo h).current ∈ h.snaps := by
  have hmem : h.current ∈ h.snaps := by
    rw [hcur]; exact getD_mem _ _ _ hix
  refine ⟨?_, ?_, ?_, ?_⟩
  · simp [handleUndo]; split <;> rfl
  · simp [handleRedo]; split <;> rfl
  · simp only [handleUndo]
    split
    · exact getD_mem _ _ _ (by omega)
    · exact hmem
  · simp only [handleRedo]
    split
    · exact getD_mem _ _ _ (by omega)
    · exact hmem

/-- Witness for C10 at the initial history. -/
theorem c10_undo_redo_frame_witness :
    (initialHistory defaultMindMap).current
      = (initialHistory defaultMindMap).snaps.getD (initialHistory defaultMindMap).index defaultMindMap ∧
    (initialHistory defaultMindMap).index < (initialHistory defaultMindMap).snaps.length ∧
    ((handleUndo (initialHistory defaultMindMap)).snaps = (initialHistory defaultMindMap).snaps ∧
     (handleRedo (initialHistory defaultMindMap)).snaps = (initialHistory defaultMindMap).snaps ∧
     (handleUndo (initialHistory defaultMindMap)).current ∈ (initialHistory defaultMindMap).snaps ∧
     (handleRedo (initialHistory defaultMindMap)).current ∈ (initialHistory defaultMindMap).snaps) :=
  ⟨by decide, by decide,
   c10_undo_redo_frame (initialHistory defaultMindMap) (by decide) (by decide)⟩

/-! ## Association-list lemmas -/

def KeysNodup (l : NodeMap) : Prop := (l.map Prod.fst).Nodup

instance : DecidablePred KeysNodup := fun l =>
  inferInstanceAs (Decidable ((l.map Prod.fst).Nodup))

theorem keysNodup_cons {k0 : String} {v0 : MindMapNode} {t : NodeMap} :
    KeysNodup ((k0, v0) :: t) ↔ k0 ∉ t.map Prod.fst ∧ KeysNodup t := by
  simp [KeysNodup]

theorem lookupN_upsert_self : ∀ (l : NodeMap) (k : String) (v : MindMapNode),
    lookupN (upsert l k v) k = some v := by
  intro l k v
  induction l with
  | nil => simp [upsert, lookupN]
  | cons e t ih =>
    rcases e with ⟨k0, v0⟩
    by_cases h : k0 = k
    · simp [upsert, h, lookupN]
    · simp [upsert, h, lookupN, ih]

theorem lookupN_upsert_other : ∀ (l : NodeMap) (k : String) (v : MindMapNode) (k2 : String),
    k ≠ k2 → lookupN (upsert l k v) k2 = lookupN l k2 := by
  intro l k v k2 hne
  induction l with
  | nil => simp [upsert, lookupN, hne]
  | cons e t ih =>
    rcases e with ⟨k0, v0⟩
    by_cases h : k0 = k
    · subst h
      simp [upsert, lookupN, hne]
    · simp only [upsert, h, if_false, lookupN]
      by_cases h2 : k0 = k2
      · simp [h2]
      · simp [h2, ih]

theorem lookupN_eraseKey_self : ∀ (l : NodeMap) (k : String),
    lookupN (eraseKey l k) k = none := by
  intro l k
  induction l with
  | nil => simp [eraseKey, lookupN]
  | cons e t ih =>
    rcases e with ⟨k0, v0⟩
    by_cases h : k0 = k
    · simp [eraseKey, h, ih]
    · simp [eraseKey, h, lookupN, ih]

theorem lookupN_eraseKey_other : ∀ (l : NodeMap) (k k2 : String),
    k ≠ k2 → lookupN (eraseKey l k) k2 = lookupN l k2 := by
  intro l k k2 hne
  induction l with
  | nil => simp [eraseKey]
  | cons e t ih =>
    rcases e with ⟨k0, v0⟩
    by_cases h : k0 = k
    · subst h
      simp [eraseKey, lookupN, hne, ih]
    · simp only [eraseKey, h, if_false, lookupN]
      by_cases h2 : k0 = k2
      · simp [h2]
      · simp [h2, ih]

theorem lookupN_mem : ∀ (l : NodeMap) (k : String) (v : MindMapNode),
    lookupN l k = some v → (k, v) ∈ l := by
  intro l k v
  induction l with
  | nil => simp [lookupN]
  | cons e t ih =>
    rcases e with ⟨k0, v0⟩
    by_cases h : k0 = k
    · subst h
      simp only [lookupN, if_pos rfl]
      intro hv
      injection hv with hv
      subst hv
      exact List.mem_cons_self _ _
    · simp only [lookupN, h, if_false, List.mem_cons]
      intro hl
      exact Or.inr (ih hl)

theorem mem_lookupN : ∀ (l : NodeMap), KeysNodup l → ∀ (k : String) (v : MindMapNode),
    (k, v) ∈ l → lookupN l k = some v := by
  intro l
  induction l with
  | nil => intro _ k v hv; simp at hv
  | cons e t ih =>
    rcases e with ⟨k0, v0⟩
    intro hnd k v hv
    rcases keysNodup_cons.mp hnd with ⟨hk0, hndt⟩
    rcases List.mem_cons.mp hv with h1 | h2
    · have h1a : k = k0 := congrArg Prod.fst h1
      have h1b : v = v0 := congrArg Prod.snd h1
      subst h1a
      subst h1b
      simp [lookupN]
    · have hk : k0 ≠ k := by
        intro he
        subst he
        exact hk0 (List.mem_map.mpr ⟨(k0, v), h2, rfl⟩)
      simp only [lookupN, hk, if_false]
      exact ih hndt k v h2

theorem keys_upsert (k : String) (v : MindMapNode) : ∀ (l : NodeMap),
    (upsert l k v).map Prod.fst
      = if k ∈ l.map Prod.fst then l.map Prod.fst else l.map Prod.fst ++ [k] := by
  intro l
  induction l with
  | nil => simp [upsert]
  | cons e t ih =>
    rcases e with ⟨k0, v0⟩
    by_cases h : k0 = k
    · subst h
      simp [upsert]
    · simp only [upsert, h, if_false, List.map_cons]
      rw [ih]
      by_cases h2 : k ∈ t.map Prod.fst
      · have : k ∈ (k0, v0).fst :: t.map Prod.fst := List.mem_cons_of_mem _ h2
        simp [h2, this]
      · have hne : ¬ k ∈ List.map Prod.fst ((k0, v0) :: t) := by
          simp [Ne.symm h, h2]
        simp at hne
        simp [h2, hne, Ne.symm h]

theorem keysNodup_upsert (l : NodeMap) (k : String) (v : MindMapNode)
    (hnd : KeysNodup l) : KeysNodup (upsert l k v) := by
  unfold KeysNodup
  rw [keys_upsert]
  by_cases h : k ∈ l.map Prod.fst
  · simpa [h] using hnd
  · simp only [h, if_false]
    rw [List.nodup_append]
    refine ⟨hnd, List.nodup_singleton k, ?_⟩
    intro a ha hb
    simp at hb
    subst hb
    exact h ha

theorem eraseKey_sublist : ∀ (l : NodeMap) (k : String), (eraseKey l k).Sublist l := by
  intro l k
  induction l with
  | nil => simp [eraseKey]
  | cons e t ih =>
    rcases e with ⟨k0, v0⟩
    by_cases h : k0 = k
    · simp only [eraseKey, h, if_pos rfl]
      exact ih.cons _
    · simp only [eraseKey, h, if_false]
      exact ih.cons₂ _

theorem keysNodup_eraseKey (l : NodeMap) (k : String) (hnd : KeysNodup l) :
    KeysNodup (eraseKey l k) := by
  exact List.Nodup.sublist ((eraseKey_sublist l k).map Prod.fst) hnd

/-! ## Occurrence-count and filter lemmas -/

theorem countOcc_append (x : String) : ∀ (a b : List String),
    countOcc x (a ++ b) = countOcc x a + countOcc x b := by
  intro a b
  induction a with
  | nil => simp [countOcc]
  | cons y t ih => simp [countOcc, ih]; omega

theorem countOcc_filterOut_self (x : String) : ∀ l : List String,
    countOcc x (filterOut x l) = 0 := by
  intro l
  induction l with
  | nil => simp [filterOut, countOcc]
  | cons y t ih =>
    by_cases h : y = x
    · simp [filterOut, h, ih]
    · simp [filterOut, h, countOcc, ih]

theorem countOcc_filterOut_other (x y : String) (hne : y ≠ x) : ∀ l : List String,
    countOcc y (filterOut x l) = countOcc y l := by
  intro l
  induction l with
  | nil => simp [filterOut]
  | cons z t ih =>
    by_cases h : z = x
    · subst h
      simp [filterOut, countOcc, Ne.symm hne, ih]
    · simp [filterOut, h, countOcc, ih]

theorem countOcc_eq_zero (x : String) : ∀ l : List String,
    countOcc x l = 0 ↔ x ∉ l := by
  intro l
  induction l with
  | nil => simp [countOcc]
  | cons y t ih =>
    by_cases h : y = x
    · subst h
      simp [countOcc, ih]
    · simp [countOcc, h, ih, Ne.symm h]

theorem mem_of_countOcc_one (x : String) (l : List String) (h : countOcc x l = 1) : x ∈ l := by
  by_contra hx
  rw [← countOcc_eq_zero] at hx
  omega

theorem filterOut_cons_self (x : String) (t : List String) :
    filterOut x (x :: t) = filterOut x t := by
  simp [filterOut]

theorem filterOut_cons_ne (x z : String) (t : List String) (h : z ≠ x) :
    filterOut x (z :: t) = z :: filterOut x t := by
  simp [filterOut, h]

theorem mem_filterOut (y x : String) : ∀ l : List String,
    y ∈ filterOut x l ↔ y ∈ l ∧ y ≠ x := by
  intro l
  induction l with
  | nil => simp [filterOut]
  | cons z t ih =>
    by_cases h : z = x
    · subst h
      rw [filterOut_cons_self]
      rw [ih]
      simp only [List.mem_cons]
      constructor
      · rintro ⟨hm, hne⟩
        exact ⟨Or.inr hm, hne⟩
      · rintro ⟨rfl | hm, hne⟩
        · exact absurd rfl hne
        · exact ⟨hm, hne⟩
    · rw [filterOut_cons_ne x z t h]
      simp only [List.mem_cons, ih]
      constructor
      · rintro (rfl | ⟨hm, hne⟩)
        · exact ⟨Or.inl rfl, h⟩
        · exact ⟨Or.inr hm, hne⟩
      · rintro ⟨rfl | hm, hne⟩
        · exact Or.inl rfl
        · exact Or.inr ⟨hm, hne⟩

/-! ## Reachability along children lists -/

/-- `ReachR nodes a k`: `k` is `a` itself or a transitive descendant of `a`
following the `children` lists of `nodes`. -/
inductive ReachR (nodes : NodeMap) (a : String) : String → Prop
  | refl : ReachR nodes a a
  | step {x c : String} {n : MindMapNode} :
      ReachR nodes a x → lookupN nodes x = some n → c ∈ n.children → ReachR nodes a c

theorem ReachR.trans {nodes : NodeMap} {a b c : String}
    (h1 : ReachR nodes a b) (h2 : ReachR nodes b c) : ReachR nodes a c := by
  induction h2 with
  | refl => exact h1
  | step hr hl hm ih => exact ReachR.step ih hl hm

/-- First-step decomposition: a strict descendant is reached through some
direct child. -/
theorem ReachR.first_step {nodes : NodeMap} {a k : String}
    (h : ReachR nodes a k) (hne : k ≠ a) :
    ∃ n : MindMapNode, lookupN nodes a = some n ∧
      ∃ c ∈ n.children, ReachR nodes c k := by
  induction h with
  | refl => exact absurd rfl hne
  | step hr hl hm ih =>
    rename_i x c n
    by_cases hxa : x = a
    · subst hxa
      exact ⟨n, hl, c, hm, ReachR.refl⟩
    · rcases ih hxa with ⟨n0, hn0, c0, hc0, hreach⟩
      exact ⟨n0, hn0, c0, hc0, ReachR.step hreach hl hm⟩

/-! ## Concrete example maps -/

/-- A plain node with the given key data. -/
def mkNode (i : String) (p : Option String) (cs : List String) : MindMapNode where
  id := i
  text := ""
  parentId := p
  children := cs
  color := ""
  position := ⟨0, 0⟩
  isExpanded := true
  shape := ""
  fontSize := none
  textColor := none

/-- Root with one collapsed, styled child `p`. -/
def mParent : MindMap where
  nodes := [("root", mkNode "root" none ["p"]),
            ("p", { mkNode "p" (some "root") [] with isExpanded := false, textColor := some "red" })]
  rootId := "root"
  connections := []

/-- The chain root → a → b. -/
def mChain : MindMap where
  nodes := [("r", mkNode "r" none ["a"]),
            ("a", mkNode "a" (some "r") ["b"]),
            ("b", mkNode "b" (some "a") [])]
  rootId := "r"
  connections := []

/-- An update object that only sets `parentId`. -/
def reparentTo (p : String) : NodeUpdates :=
  { noUpdates with parentIdField := some (some p) }

/-! ## Operation unfolding lemmas -/

/-- The node created by addChild for parent node `n`. -/
def addChildNewNode (pid newId : String) (n : MindMapNode) : MindMapNode where
  id := newId
  text := "New Idea"
  parentId := some pid
  children := []
  color := n.color
  position := ⟨n.position.x + 200, n.position.y + (n.children.length : Int) * 100⟩
  isExpanded := true
  shape := n.shape
  fontSize := none
  textColor := none

theorem handleAddChild_spec (m : MindMap) (pid newId : String) (n : MindMapNode)
    (hp : lookupN m.nodes pid = some n) :
    handleAddChild m pid newId = some { m with
      nodes := upsert (upsert m.nodes newId (addChildNewNode pid newId n)) pid
          { n with children := n.children ++ [newId] } } := by
  simp only [handleAddChild, hp, addChildNewNode]

theorem handleUpdateNode_reparent (m : MindMap) (nodeId : String) (u : NodeUpdates)
    (np : Option String) (n : MindMapNode)
    (hu : u.parentIdField = some np)
    (hn : lookupN m.nodes nodeId = some n)
    (hne : np ≠ n.parentId) :
    handleUpdateNode m nodeId u =
      (updStep1 m nodeId n).bind fun n1 =>
        (updStep2 nodeId np n1).map fun n2 =>
          { m with nodes := upsert n2 nodeId (mergeNode ((lookupN n2 nodeId).getD junkNode) u) } := by
  simp only [handleUpdateNode, hu, hn]
  rw [if_neg hne]

/-! ## Claim C6 -/

/-- C6 (counterexample): addChild does not set the parent's isExpanded
flag (the source only replaces the children list), and the new node does
not inherit the parent's full style (textColor is not copied). -/
theorem c6_counterexample :
    ((lookupN mParent.nodes "p").map (fun n => n.isExpanded) = some false ∧
     (lookupN mParent.nodes "p").map (fun n => n.textColor) = some (some "red")) ∧
    (handleAddChild mParent "p" "node-5").bind
      (fun m2 => (lookupN m2.nodes "p").map (fun n => n.isExpanded)) = some false ∧
    (handleAddChild mParent "p" "node-5").bind
      (fun m2 => (lookupN m2.nodes "node-5").map (fun n => n.textColor)) = some none := by
  refine ⟨⟨?_, ?_⟩, ?_, ?_⟩ <;> decide

/-- C6 (amended): when the parent exists and the generated id is not
already in the mapping, addChild creates exactly one new node with that
id, default text, parent `pid`, position offset from the parent, the
parent's color and shape (no other style fields), appends the new id to
the end of the parent's children, leaves every other field of the parent
— including isExpanded — unchanged, and touches no other node. -/
theorem c6_amended (m : MindMap) (pid newId : String) (n : MindMapNode)
    (hp : lookupN m.nodes pid = some n) (hfresh : lookupN m.nodes newId = none) :
    ∃ m2, handleAddChild m pid newId = some m2 ∧
      lookupN m2.nodes newId = some (addChildNewNode pid newId n) ∧
      lookupN m2.nodes pid = some { n with children := n.children ++ [newId] } ∧
      (∀ k, k ≠ newId → k ≠ pid → lookupN m2.nodes k = lookupN m.nodes k) ∧
      m2.rootId = m.rootId ∧ m2.connections = m.connections := by
  have hne : pid ≠ newId := by
    intro he
    rw [he, hfresh] at hp
    exact Option.noConfusion hp
  refine ⟨_, handleAddChild_spec m pid newId n hp, ?_, ?_, ?_, rfl, rfl⟩
  · show lookupN (upsert (upsert m.nodes newId _) pid _) newId = _
    rw [lookupN_upsert_other _ _ _ _ hne, lookupN_upsert_self]
  · show lookupN (upsert (upsert m.nodes newId _) pid _) pid = _
    rw [lookupN_upsert_self]
  · intro k hk1 hk2
    show lookupN (upsert (upsert m.nodes newId _) pid _) k = _
    rw [lookupN_upsert_other _ _ _ _ (Ne.symm hk2), lookupN_upsert_other _ _ _ _ (Ne.symm hk1)]

/-- Witness for C6 (amended) on the concrete map whose parent node is
collapsed. -/
theorem c6_amended_witness :
    lookupN mParent.nodes "p"
      = some { mkNode "p" (some "root") [] with isExpanded := false, textColor := some "red" } ∧
    lookupN mParent.nodes "node-5" = none ∧
    (∃ m2, handleAddChild mParent "p" "node-5" = some m2 ∧
      lookupN m2.nodes "node-5"
        = some (addChildNewNode "p" "node-5"
            { mkNode "p" (some "root") [] with isExpanded := false, textColor := some "red" }) ∧
      lookupN m2.nodes "p"
        = some { ({ mkNode "p" (some "root") [] with isExpanded := false, textColor := some "red" } : MindMapNode) with
            children := ({ mkNode "p" (some "root") [] with isExpanded := false, textColor := some "red" } : MindMapNode).children ++ ["node-5"] } ∧
      (∀ k, k ≠ "node-5" → k ≠ "p" → lookupN m2.nodes k = lookupN mParent.nodes k) ∧
      m2.rootId = mParent.rootId ∧ m2.connections = mParent.connections) :=
  ⟨by decide, by decide,
   c6_amended mParent "p" "node-5"
     { mkNode "p" (some "root") [] with isExpanded := false, textColor := some "red" }
     (by decide) (by decide)⟩

/-! ## Claim C7 -/

/-- C7 (counterexample): reparenting node a under its own descendant b is
not rejected: the operation succeeds and changes the map. -/
theorem c7_counterexample :
    ReachR mChain.nodes "a" "b" ∧
    handleUpdateNode mChain "a" (reparentTo "b") ≠ some mChain ∧
    handleUpdateNode mChain "a" (reparentTo "b") ≠ none := by
  refine ⟨?_, by decide, by decide⟩
  exact ReachR.step (n := mkNode "a" (some "r") ["b"]) ReachR.refl (by decide) (by decide)

/-- C7 (amended): updateNode with a parentId naming a descendant `d` of
the node (d and the old parent non-empty ids, so the JavaScript
truthiness guards run their blocks) is accepted, not rejected: the node
is removed from its old parent's children, appended to the children of
`d`, its parentId becomes `d` (closing a cycle in the parent chain), and
the map changes. -/
theorem c7_amended (m : MindMap) (nodeId d q : String) (n dn qn : MindMapNode)
    (hn : lookupN m.nodes nodeId = some n) (hd : lookupN m.nodes d = some dn)
    (hq : n.parentId = some q) (hqn : lookupN m.nodes q = some qn)
    (hreach : ReachR m.nodes nodeId d)
    (hdn : d ≠ nodeId) (hdq : d ≠ q) (hqid : q ≠ nodeId)
    (hqe : q ≠ "") (hde : d ≠ "") :
    ∃ m2, handleUpdateNode m nodeId (reparentTo d) = some m2 ∧
      lookupN m2.nodes nodeId = some { n with parentId := some d } ∧
      lookupN m2.nodes d = some { dn with children := dn.children ++ [nodeId] } ∧
      lookupN m2.nodes q = some { qn with children := filterOut nodeId qn.children } ∧
      (∀ k, k ≠ nodeId → k ≠ d → k ≠ q → lookupN m2.nodes k = lookupN m.nodes k) ∧
      m2 ≠ m := by
  have hne : (some d : Option String) ≠ n.parentId := by
    rw [hq]
    intro he
    injection he with he
    exact hdq he
  have hunf := handleUpdateNode_reparent m nodeId (reparentTo d) (some d) n rfl hn hne
  have hs1 : updStep1 m nodeId n
      = some (upsert m.nodes q { qn with children := filterOut nodeId qn.children }) := by
    simp only [updStep1, hq, if_neg hqe, hqn]
  have hlkd : lookupN (upsert m.nodes q { qn with children := filterOut nodeId qn.children }) d
      = some dn := by
    rw [lookupN_upsert_other _ _ _ _ (Ne.symm hdq), hd]
  have hs2 : updStep2 nodeId (some d)
        (upsert m.nodes q { qn with children := filterOut nodeId qn.children })
      = some (upsert (upsert m.nodes q { qn with children := filterOut nodeId qn.children }) d
          { dn with children := dn.children ++ [nodeId] }) := by
    simp only [updStep2, if_neg hde, hlkd]
  have hlkid : lookupN (upsert (upsert m.nodes q
        { qn with children := filterOut nodeId qn.children }) d
        { dn with children := dn.children ++ [nodeId] }) nodeId = some n := by
    rw [lookupN_upsert_other _ _ _ _ hdn, lookupN_upsert_other _ _ _ _ hqid, hn]
  rw [hs1] at hunf
  rw [Option.some_bind] at hunf
  rw [hs2] at hunf
  rw [Option.map_some'] at hunf
  rw [hlkid] at hunf
  refine ⟨_, hunf, ?_, ?_, ?_, ?_, ?_⟩
  · show lookupN (upsert _ nodeId _) nodeId = _
    rw [lookupN_upsert_self]
    rfl
  · show lookupN (upsert _ nodeId _) d = _
    rw [lookupN_upsert_other _ _ _ _ (Ne.symm hdn), lookupN_upsert_self]
  · show lookupN (upsert _ nodeId _) q = _
    rw [lookupN_upsert_other _ _ _ _ (Ne.symm hqid), lookupN_upsert_other _ _ _ _ hdq]
    rw [lookupN_upsert_self]
  · intro k hk1 hk2 hk3
    show lookupN (upsert _ nodeId _) k = _
    rw [lookupN_upsert_other _ _ _ _ (Ne.symm hk1), lookupN_upsert_other _ _ _ _ (Ne.symm hk2),
      lookupN_upsert_other _ _ _ _ (Ne.symm hk3)]
  · intro he
    have h1 := congrArg (fun mm : MindMap => lookupN mm.nodes nodeId) he
    dsimp only at h1
    rw [lookupN_upsert_self, hn] at h1
    injection h1 with h1
    have h2 := congrArg MindMapNode.parentId h1
    rw [hq] at h2
    have h3 : (mergeNode ((some n).getD junkNode) (reparentTo d)).parentId = some d := rfl
    rw [h3] at h2
    injection h2 with h2
    exact hdq h2

/-- Witness for C7 (amended) on the chain r → a → b. -/
theorem c7_amended_witness :
    lookupN mChain.nodes "a" = some (mkNode "a" (some "r") ["b"]) ∧
    lookupN mChain.nodes "b" = some (mkNode "b" (some "a") []) ∧
    (mkNode "a" (some "r") ["b"]).parentId = some "r" ∧
    lookupN mChain.nodes "r" = some (mkNode "r" none ["a"]) ∧
    ReachR mChain.nodes "a" "b" ∧
    (∃ m2, handleUpdateNode mChain "a" (reparentTo "b") = some m2 ∧
      lookupN m2.nodes "a" = some { mkNode "a" (some "r") ["b"] with parentId := some "b" } ∧
      lookupN m2.nodes "b"
        = some { mkNode "b" (some "a") [] with children := (mkNode "b" (some "a") []).children ++ ["a"] } ∧
      lookupN m2.nodes "r"
        = some { mkNode "r" none ["a"] with children := filterOut "a" (mkNode "r" none ["a"]).children } ∧
      (∀ k, k ≠ "a" → k ≠ "b" → k ≠ "r" → lookupN m2.nodes k = lookupN mChain.nodes k) ∧
      m2 ≠ mChain) :=
  ⟨by decide, by decide, by decide, by decide,
   ReachR.step (n := mkNode "a" (some "r") ["b"]) ReachR.refl (by decide) (by decide),
   c7_amended mChain "a" "b" "r" (mkNode "a" (some "r") ["b"]) (mkNode "b" (some "a") [])
     (mkNode "r" none ["a"]) (by decide) (by decide) (by decide) (by decide)
     (ReachR.step (n := mkNode "a" (some "r") ["b"]) ReachR.refl (by decide) (by decide))
     (by decide) (by decide) (by decide) (by decide) (by decide)⟩

/-! ## Cascade-delete lemmas -/

theorem lookupN_eq_none : ∀ (l : NodeMap) (k : String),
    lookupN l k = none ↔ ∀ v, (k, v) ∉ l := by
  intro l k
  induction l with
  | nil => simp [lookupN]
  | cons e t ih =>
    rcases e with ⟨k0, v0⟩
    by_cases h : k0 = k
    · subst h
      constructor
      · intro hl
        simp [lookupN] at hl
      · intro hv
        exact absurd (List.mem_cons_self (k0, v0) t) (hv v0)
    · simp only [lookupN, h, if_false, ih, List.mem_cons]
      constructor
      · intro hv v
        rintro (he | hm)
        · exact h (congrArg Prod.fst he).symm
        · exact hv v hm
      · intro hv v hm
        exact hv v (Or.inr hm)

theorem keysNodup_sublist {l1 l2 : NodeMap} (h : l1.Sublist l2) (hnd : KeysNodup l2) :
    KeysNodup l1 :=
  List.Nodup.sublist (h.map Prod.fst) hnd

theorem lookupN_of_sublist {l1 l2 : NodeMap} (h : l1.Sublist l2) (hnd : KeysNodup l2)
    {k : String} {v : MindMapNode} (hv : lookupN l1 k = some v) : lookupN l2 k = some v :=
  mem_lookupN l2 hnd k v (h.subset (lookupN_mem l1 k v hv))

theorem deleteList_sublist : ∀ (fuel : Nat) (l : List String) (acc out : NodeMap),
    deleteList fuel l acc = some out → out.Sublist acc := by
  intro fuel
  induction fuel with
  | zero =>
    intro l acc out h
    cases l with
    | nil =>
      simp only [deleteList, Option.some.injEq] at h
      subst h
      exact List.Sublist.refl _
    | cons c rest => simp [deleteList] at h
  | succ fuel ih =>
    intro l acc out h
    cases l with
    | nil =>
      simp only [deleteList, Option.some.injEq] at h
      subst h
      exact List.Sublist.refl _
    | cons c rest =>
      simp only [deleteList] at h
      split at h
      next heq => exact absurd h (by simp)
      next n hc =>
        split at h
        next heq2 => exact absurd h (by simp)
        next ns hd1 =>
          exact (ih rest (eraseKey ns c) out h).trans
            ((eraseKey_sublist ns c).trans (ih n.children acc ns hd1))

theorem deleteList_none_mono : ∀ (fuel : Nat) (l : List String) (acc out : NodeMap),
    deleteList fuel l acc = some out →
    ∀ k, lookupN acc k = none → lookupN out k = none := by
  intro fuel l acc out h k hk
  cases ho : lookupN out k with
  | none => rfl
  | some v =>
    exfalso
    have hmem := (deleteList_sublist fuel l acc out h).subset (lookupN_mem out k v ho)
    exact (lookupN_eq_none acc k).mp hk v hmem

theorem deleteList_reach_none (ns : NodeMap) (hnd : KeysNodup ns) :
    ∀ (fuel : Nat) (l : List String) (acc out : NodeMap),
    acc.Sublist ns → deleteList fuel l acc = some out →
    ∀ c ∈ l, ∀ k, ReachR ns c k → lookupN out k = none := by
  intro fuel
  induction fuel with
  | zero =>
    intro l acc out hacc h c hc k hreach
    cases l with
    | nil => simp at hc
    | cons c0 rest => simp [deleteList] at h
  | succ fuel ih =>
    intro l acc out hacc h c hc k hreach
    cases l with
    | nil => simp at hc
    | cons c0 rest =>
      simp only [deleteList] at h
      split at h
      next heq => exact absurd h (by simp)
      next n hc0 =>
        split at h
        next heq2 => exact absurd h (by simp)
        next ns1 hd1 =>
          have hsub1 : (eraseKey ns1 c0).Sublist ns :=
            ((eraseKey_sublist ns1 c0).trans
              (deleteList_sublist fuel n.children acc ns1 hd1)).trans hacc
          rcases List.mem_cons.mp hc with rfl | hcrest
          · -- deleting the subtree rooted at c itself
            have hns : lookupN ns c = some n := lookupN_of_sublist hacc hnd hc0
            by_cases hk : k = c
            · subst hk
              have h3 : lookupN (eraseKey ns1 k) k = none := lookupN_eraseKey_self ns1 k
              exact deleteList_none_mono fuel rest (eraseKey ns1 k) out h k h3
            · rcases hreach.first_step hk with ⟨n0, hn0, ch, hch, hreach2⟩
              rw [hns] at hn0
              injection hn0 with hn0
              subst hn0
              have h4 := ih n.children acc ns1 hacc hd1 ch hch k hreach2
              have h5 : lookupN (eraseKey ns1 c) k = none := by
                rw [lookupN_eraseKey_other _ _ _ (fun he => hk he.symm), h4]
              exact deleteList_none_mono fuel rest (eraseKey ns1 c) out h k h5
          · exact ih rest (eraseKey ns1 c0) out hsub1 h c hcrest k hreach

theorem deleteList_not_reach (ns : NodeMap) (hnd : KeysNodup ns) :
    ∀ (fuel : Nat) (l : List String) (acc out : NodeMap),
    acc.Sublist ns → deleteList fuel l acc = some out →
    ∀ k, (∀ c ∈ l, ¬ ReachR ns c k) → lookupN out k = lookupN acc k := by
  intro fuel
  induction fuel with
  | zero =>
    intro l acc out hacc h k hnr
    cases l with
    | nil =>
      simp only [deleteList, Option.some.injEq] at h
      rw [h]
    | cons c0 rest => simp [deleteList] at h
  | succ fuel ih =>
    intro l acc out hacc h k hnr
    cases l with
    | nil =>
      simp only [deleteList, Option.some.injEq] at h
      rw [h]
    | cons c0 rest =>
      simp only [deleteList] at h
      split at h
      next heq => exact absurd h (by simp)
      next n hc0 =>
        split at h
        next heq2 => exact absurd h (by simp)
        next ns1 hd1 =>
          have hsub1 : (eraseKey ns1 c0).Sublist ns :=
            ((eraseKey_sublist ns1 c0).trans
              (deleteList_sublist fuel n.children acc ns1 hd1)).trans hacc
          have hnr0 : ¬ ReachR ns c0 k := hnr c0 (List.mem_cons_self c0 rest)
          have hkc0 : k ≠ c0 := fun he => hnr0 (he ▸ ReachR.refl)
          have hns : lookupN ns c0 = some n := lookupN_of_sublist hacc hnd hc0
          have hnrc : ∀ ch ∈ n.children, ¬ ReachR ns ch k := by
            intro ch hch hreach
            exact hnr0 (ReachR.trans (ReachR.step ReachR.refl hns hch) hreach)
          have h4 := ih n.children acc ns1 hacc hd1 k hnrc
          have h5 : lookupN (eraseKey ns1 c0) k = lookupN ns1 k :=
            lookupN_eraseKey_other ns1 c0 k (fun he => hkc0 he.symm)
          have h6 := ih rest (eraseKey ns1 c0) out hsub1 h k
            (fun c hc => hnr c (List.mem_cons_of_mem c0 hc))
          rw [h6, h5, h4]

/-! ## Claim C2 -/

theorem handleDeleteNode_cascade (m : MindMap) (nodeId : String) (node : MindMapNode)
    (hroot : ¬ nodeId = m.rootId) (hn : lookupN m.nodes nodeId = some node) :
    handleDeleteNode m nodeId true =
      (deleteList (m.nodes.length + 1) [nodeId] m.nodes).bind (deleteFinal m nodeId node) := by
  simp only [handleDeleteNode, if_neg hroot, hn, if_true]

/-- The chain with a free-form connection attached to the leaf b. -/
def mConn : MindMap := { mChain with connections := [⟨"b", "r", none, none⟩] }

/-- The map the source produces for deleteNode(b, cascade) on `mConn`. -/
def mConnResult : MindMap where
  nodes := [("r", mkNode "r" none ["a"]), ("a", mkNode "a" (some "r") [])]
  rootId := "r"
  connections := [⟨"b", "r", none, none⟩]

/-- C2 (counterexample): cascade-deleting b removes it from the node
mapping, but the connection whose start is the removed b survives — the
source never touches the connections list. -/
theorem c2_counterexample :
    handleDeleteNode mConn "b" true = some mConnResult ∧
    lookupN mConnResult.nodes "b" = none ∧
    ∃ c ∈ mConnResult.connections, c.start = "b" := by
  refine ⟨by decide, by decide, ?_⟩
  exact ⟨⟨"b", "r", none, none⟩, by decide, rfl⟩

/-- C2 (amended): when cascade delete of a non-root id returns a map (on
cyclic or corrupt stores the source throws instead), that map lacks the id
and every transitive descendant, keeps exactly the other nodes, and the
connections list is left unchanged — connections referencing removed ids
are not pruned. -/
theorem c2_amended (m : MindMap) (nodeId : String) (m2 : MindMap)
    (hnd : KeysNodup m.nodes) (hroot : nodeId ≠ m.rootId)
    (hdel : handleDeleteNode m nodeId true = some m2) :
    (∀ k, ReachR m.nodes nodeId k → lookupN m2.nodes k = none) ∧
    (∀ k, ¬ ReachR m.nodes nodeId k →
      (lookupN m2.nodes k).isSome = (lookupN m.nodes k).isSome) ∧
    m2.connections = m.connections ∧ m2.rootId = m.rootId := by
  cases hn : lookupN m.nodes nodeId with
  | none =>
    rw [handleDeleteNode, if_neg hroot, hn] at hdel
    exact absurd hdel (by simp)
  | some node =>
    rw [handleDeleteNode_cascade m nodeId node hroot hn] at hdel
    rcases Option.bind_eq_some.mp hdel with ⟨nn, hnn, hfin⟩
    have hreach_none : ∀ k, ReachR m.nodes nodeId k → lookupN nn k = none := by
      intro k hk
      exact deleteList_reach_none m.nodes hnd (m.nodes.length + 1) [nodeId] m.nodes nn
        (List.Sublist.refl _) hnn nodeId (List.mem_cons_self _ _) k hk
    have hkeep : ∀ k, ¬ ReachR m.nodes nodeId k → lookupN nn k = lookupN m.nodes k := by
      intro k hk
      refine deleteList_not_reach m.nodes hnd (m.nodes.length + 1) [nodeId] m.nodes nn
        (List.Sublist.refl _) hnn k ?_
      intro c hc
      rcases List.mem_cons.mp hc with rfl | hc2
      · exact hk
      · simp at hc2
    rw [deleteFinal] at hfin
    split at hfin
    next hp =>
      injection hfin with hfin
      subst hfin
      refine ⟨hreach_none, ?_, rfl, rfl⟩
      intro k hk
      rw [show ({ m with nodes := nn } : MindMap).nodes = nn from rfl, hkeep k hk]
    next pid hp =>
      by_cases hpe : pid = ""
      · rw [if_pos hpe] at hfin
        injection hfin with hfin
        subst hfin
        refine ⟨hreach_none, ?_, rfl, rfl⟩
        intro k hk
        rw [show ({ m with nodes := nn } : MindMap).nodes = nn from rfl, hkeep k hk]
      · rw [if_neg hpe] at hfin
        split at hfin
        next hpl => exact absurd hfin (by simp)
        next parent hpl =>
          injection hfin with hfin
          subst hfin
          have hpid_not_reach : ¬ ReachR m.nodes nodeId pid := by
            intro hr
            rw [hreach_none pid hr] at hpl
            exact Option.noConfusion hpl
          refine ⟨?_, ?_, rfl, rfl⟩
          · intro k hk
            have hkpid : k ≠ pid := by
              rintro rfl
              exact hpid_not_reach hk
            show lookupN (upsert nn pid _) k = none
            rw [lookupN_upsert_other _ _ _ _ (Ne.symm hkpid), hreach_none k hk]
          · intro k hk
            by_cases hkpid : k = pid
            · subst hkpid
              show (lookupN (upsert nn k _) k).isSome = _
              rw [lookupN_upsert_self]
              have : lookupN m.nodes k = some parent :=
                lookupN_of_sublist (deleteList_sublist _ _ _ _ hnn) hnd hpl
              rw [this]
              rfl
            · show (lookupN (upsert nn pid _) k).isSome = _
              rw [lookupN_upsert_other _ _ _ _ (Ne.symm hkpid), hkeep k hk]

/-- Witness for C2 (amended): cascade delete of a on the chain r → a → b
removes a and b and keeps r. -/
theorem c2_amended_witness :
    KeysNodup mChain.nodes ∧ "a" ≠ "r" ∧
    handleDeleteNode mChain "a" true
      = some { nodes := [("r", mkNode "r" none [])], rootId := "r", connections := [] } ∧
    ((∀ k, ReachR mChain.nodes "a" k →
        lookupN ({ nodes := [("r", mkNode "r" none [])], rootId := "r", connections := [] } : MindMap).nodes k = none) ∧
     (∀ k, ¬ ReachR mChain.nodes "a" k →
        (lookupN ({ nodes := [("r", mkNode "r" none [])], rootId := "r", connections := [] } : MindMap).nodes k).isSome
          = (lookupN mChain.nodes k).isSome) ∧
     ({ nodes := [("r", mkNode "r" none [])], rootId := "r", connections := [] } : MindMap).connections = mChain.connections ∧
     ({ nodes := [("r", mkNode "r" none [])], rootId := "r", connections := [] } : MindMap).rootId = mChain.rootId) :=
  ⟨by decide, by decide, by decide,
   c2_amended mChain "a" { nodes := [("r", mkNode "r" none [])], rootId := "r", connections := [] }
     (by decide) (by decide) (by decide)⟩

/-! ## Tree invariants (spec section 3) -/

/-- Bidirectional parent/child consistency, entry-wise and decidable:
a non-null parentId points at a present node whose children list holds
this id exactly once, and every children entry points back. -/
def consistentB (nodes : NodeMap) : Bool :=
  nodes.all fun e =>
    (match e.2.parentId with
     | none => true
     | some p =>
       match lookupN nodes p with
       | none => false
       | some pn => countOcc e.1 pn.children == 1) &&
    (e.2.children.all fun c =>
      match lookupN nodes c with
      | none => false
      | some cn => cn.parentId == some e.1)

def Consistent (nodes : NodeMap) : Prop := consistentB nodes = true

instance (nodes : NodeMap) : Decidable (Consistent nodes) :=
  inferInstanceAs (Decidable (consistentB nodes = true))

/-- The same invariant phrased through lookups, used in the proofs. -/
def ConsistentL (nodes : NodeMap) : Prop :=
  ∀ k n, lookupN nodes k = some n →
    (∀ p, n.parentId = some p →
      ∃ pn, lookupN nodes p = some pn ∧ countOcc k pn.children = 1) ∧
    (∀ c, c ∈ n.children →
      ∃ cn, lookupN nodes c = some cn ∧ cn.parentId = some k)

theorem consistent_to_L {nodes : NodeMap} (h : Consistent nodes) : ConsistentL nodes := by
  intro k n hk
  have hmem := lookupN_mem nodes k n hk
  have he := List.all_eq_true.mp h (k, n) hmem
  rw [Bool.and_eq_true] at he
  obtain ⟨h1, h2⟩ := he
  constructor
  · intro p hp
    rw [show ((k, n) : String × MindMapNode).2.parentId = n.parentId from rfl, hp] at h1
    have h1b : (match lookupN nodes p with
      | none => false
      | some pn => countOcc k pn.children == 1) = true := h1
    split at h1b
    · exact absurd h1b (by simp)
    · next pn hpl => exact ⟨pn, hpl, by simpa using h1b⟩
  · intro c hc
    have h2b := List.all_eq_true.mp h2 c hc
    have h2c : (match lookupN nodes c with
      | none => false
      | some cn => cn.parentId == some k) = true := h2b
    split at h2c
    · exact absurd h2c (by simp)
    · next cn hcl => exact ⟨cn, hcl, by simpa using h2c⟩

theorem L_to_consistent {nodes : NodeMap} (hnd : KeysNodup nodes)
    (h : ConsistentL nodes) : Consistent nodes := by
  apply List.all_eq_true.mpr
  intro e hmem
  have hk : lookupN nodes e.1 = some e.2 := mem_lookupN nodes hnd e.1 e.2 hmem
  rcases h e.1 e.2 hk with ⟨h1, h2⟩
  rw [Bool.and_eq_true]
  constructor
  · cases hp : e.2.parentId with
    | none => rfl
    | some p =>
      rcases h1 p hp with ⟨pn, hpn, hcount⟩
      show (match lookupN nodes p with
        | none => false
        | some pn => countOcc e.1 pn.children == 1) = true
      rw [hpn]
      simp [hcount]
  · apply List.all_eq_true.mpr
    intro c hc
    rcases h2 c hc with ⟨cn, hcn, hpid⟩
    show (match lookupN nodes c with
      | none => false
      | some cn => cn.parentId == some e.1) = true
    rw [hcn]
    exact beq_iff_eq.mpr hpid

/-- Only the root may carry a null parentId (decidable form). -/
def rootedNullB (m : MindMap) : Bool :=
  m.nodes.all fun e =>
    match e.2.parentId with
    | none => e.1 == m.rootId
    | some _ => true

def RootedNull (m : MindMap) : Prop := rootedNullB m = true

instance (m : MindMap) : Decidable (RootedNull m) :=
  inferInstanceAs (Decidable (rootedNullB m = true))

theorem rootedNull_to_L {m : MindMap} (h : RootedNull m) :
    ∀ k n, lookupN m.nodes k = some n → n.parentId = none → k = m.rootId := by
  intro k n hk hp
  have he := List.all_eq_true.mp h (k, n) (lookupN_mem m.nodes k n hk)
  rw [show ((k, n) : String × MindMapNode).2.parentId = n.parentId from rfl, hp] at he
  have heb : (k == m.rootId) = true := he
  exact beq_iff_eq.mp heb

theorem L_to_rootedNull {m : MindMap} (hnd : KeysNodup m.nodes)
    (h : ∀ k n, lookupN m.nodes k = some n → n.parentId = none → k = m.rootId) :
    RootedNull m := by
  apply List.all_eq_true.mpr
  intro e hmem
  have hk : lookupN m.nodes e.1 = some e.2 := mem_lookupN m.nodes hnd e.1 e.2 hmem
  cases hp : e.2.parentId with
  | none =>
    show (e.1 == m.rootId) = true
    exact beq_iff_eq.mpr (h e.1 e.2 hk hp)
  | some p => rfl

/-- A decidable acyclicity certificate: a rank function that strictly
drops along present parent pointers. -/
def acycCertB (nodes : NodeMap) (h : String → Nat) : Bool :=
  nodes.all fun e =>
    match e.2.parentId with
    | none => true
    | some p =>
      match lookupN nodes p with
      | none => true
      | some _ => decide (h p < h e.1)

def AcycCert (nodes : NodeMap) (h : String → Nat) : Prop := acycCertB nodes h = true

instance (nodes : NodeMap) (h : String → Nat) : Decidable (AcycCert nodes h) :=
  inferInstanceAs (Decidable (acycCertB nodes h = true))

def Acyc (nodes : NodeMap) : Prop := ∃ h, AcycCert nodes h

/-- The lookup-level reading of the certificate. -/
def AcycL (nodes : NodeMap) (h : String → Nat) : Prop :=
  ∀ k n p pn, lookupN nodes k = some n → n.parentId = some p →
    lookupN nodes p = some pn → h p < h k

theorem acycCert_to_L {nodes : NodeMap} {h : String → Nat} (hc : AcycCert nodes h) :
    AcycL nodes h := by
  intro k n p pn hk hp hpl
  have he := List.all_eq_true.mp hc (k, n) (lookupN_mem nodes k n hk)
  rw [show ((k, n) : String × MindMapNode).2.parentId = n.parentId from rfl, hp] at he
  have heb : (match lookupN nodes p with
    | none => true
    | some _ => decide (h p < h k)) = true := he
  rw [hpl] at heb
  exact of_decide_eq_true heb

theorem L_to_acycCert {nodes : NodeMap} {h : String → Nat} (hnd : KeysNodup nodes)
    (hl : AcycL nodes h) : AcycCert nodes h := by
  apply List.all_eq_true.mpr
  intro e hmem
  have hk : lookupN nodes e.1 = some e.2 := mem_lookupN nodes hnd e.1 e.2 hmem
  cases hp : e.2.parentId with
  | none => rfl
  | some p =>
    show (match lookupN nodes p with
      | none => true
      | some _ => decide (h p < h e.1)) = true
    cases hpl : lookupN nodes p with
    | none => rfl
    | some pn => exact decide_eq_true (hl e.1 e.2 p pn hk hp hpl)

/-- The tree invariants of spec section 3: unique object keys,
bidirectional consistency, a unique null-parent node (the root), and
acyclicity. -/
def TreeInv (m : MindMap) : Prop :=
  KeysNodup m.nodes ∧ Consistent m.nodes ∧ RootedNull m ∧ Acyc m.nodes

/-! ### Facts derived from the invariants -/

theorem no_self_parent {nodes : NodeMap} (hac : Acyc nodes) {k : String} {n : MindMapNode}
    (hk : lookupN nodes k = some n) : n.parentId ≠ some k := by
  rcases hac with ⟨h, hc⟩
  intro hp
  exact absurd (acycCert_to_L hc k n k n hk hp hk) (by omega)

theorem no_two_cycle {nodes : NodeMap} (hac : Acyc nodes) {k q : String}
    {n qn : MindMapNode} (hk : lookupN nodes k = some n) (hp : n.parentId = some q)
    (hq : lookupN nodes q = some qn) : qn.parentId ≠ some k := by
  rcases hac with ⟨h, hc⟩
  intro hqp
  have h1 := acycCert_to_L hc k n q qn hk hp hq
  have h2 := acycCert_to_L hc q qn k n hq hqp hk
  omega

/-! ## Claim C3 -/

theorem filterOut_append (x : String) : ∀ (a b : List String),
    filterOut x (a ++ b) = filterOut x a ++ filterOut x b := by
  intro a b
  induction a with
  | nil => simp [filterOut]
  | cons y t ih =>
    by_cases h : y = x
    · subst h
      rw [List.cons_append, filterOut_cons_self, filterOut_cons_self, ih]
    · rw [List.cons_append, filterOut_cons_ne x y _ h, filterOut_cons_ne x y t h, ih,
        List.cons_append]

theorem filterOut_of_not_mem (x : String) : ∀ l : List String,
    x ∉ l → filterOut x l = l := by
  intro l hx
  induction l with
  | nil => rfl
  | cons y t ih =>
    have hyx : y ≠ x := fun he => hx (he ▸ List.mem_cons_self y t)
    rw [filterOut_cons_ne x y t hyx, ih (fun h2 => hx (List.mem_cons_of_mem y h2))]

theorem not_mem_filterOut_self (x : String) (l : List String) : x ∉ filterOut x l :=
  fun h => ((mem_filterOut x x l).mp h).2 rfl

theorem filterOut_idem (x : String) (l : List String) :
    filterOut x (filterOut x l) = filterOut x l :=
  filterOut_of_not_mem x (filterOut x l) (not_mem_filterOut_self x l)

theorem nodup_of_countOcc : ∀ l : List String, (∀ x ∈ l, countOcc x l = 1) → l.Nodup := by
  intro l
  induction l with
  | nil => intro _; exact List.nodup_nil
  | cons y t ih =>
    intro h
    have hy := h y (List.mem_cons_self y t)
    simp [countOcc] at hy
    have hy0 : countOcc y t = 0 := by omega
    refine List.nodup_cons.mpr ⟨(countOcc_eq_zero y t).mp hy0, ih ?_⟩
    intro x hx
    have hx1 := h x (List.mem_cons_of_mem y hx)
    by_cases he : y = x
    · subst he
      exact absurd hx ((countOcc_eq_zero y t).mp hy0)
    · simp only [countOcc, if_neg he] at hx1
      omega

theorem promoteChildren_spec (pid : Option String) : ∀ (l : List String) (nodes : NodeMap),
    l.Nodup → (∀ c ∈ l, (lookupN nodes c).isSome = true) →
    (∀ k, k ∉ l → lookupN (promoteChildren pid l nodes) k = lookupN nodes k) ∧
    (∀ c cn, c ∈ l → lookupN nodes c = some cn →
      lookupN (promoteChildren pid l nodes) c = some { cn with parentId := pid }) := by
  intro l
  induction l with
  | nil =>
    intro nodes _ _
    exact ⟨fun k _ => rfl, fun c cn hc _ => absurd hc (by simp)⟩
  | cons c rest ih =>
    intro nodes hnd hsome
    obtain ⟨cn, hcn⟩ : ∃ cn, lookupN nodes c = some cn :=
      Option.isSome_iff_exists.mp (hsome c (List.mem_cons_self c rest))
    have hcrest : c ∉ rest := (List.nodup_cons.mp hnd).1
    have hndr : rest.Nodup := (List.nodup_cons.mp hnd).2
    have hsome1 : ∀ c2 ∈ rest, (lookupN (upsert nodes c { cn with parentId := pid }) c2).isSome = true := by
      intro c2 hc2
      have hne : c ≠ c2 := fun he => hcrest (he ▸ hc2)
      rw [lookupN_upsert_other _ _ _ _ hne]
      exact hsome c2 (List.mem_cons_of_mem c hc2)
    rcases ih (upsert nodes c { cn with parentId := pid }) hndr hsome1 with ⟨hkeep, hupd⟩
    have hred : promoteChildren pid (c :: rest) nodes
        = promoteChildren pid rest (upsert nodes c { cn with parentId := pid }) := by
      simp only [promoteChildren, hcn]
    constructor
    · intro k hk
      have hk1 : k ∉ rest := fun h2 => hk (List.mem_cons_of_mem c h2)
      have hk2 : c ≠ k := fun he => hk (he ▸ List.mem_cons_self c rest)
      rw [hred, hkeep k hk1, lookupN_upsert_other _ _ _ _ hk2]
    · intro c2 cn2 hc2 hcn2
      rcases List.mem_cons.mp hc2 with rfl | h2
      · rw [hcn] at hcn2
        injection hcn2 with hcn2
        subst hcn2
        rw [hred, hkeep c2 hcrest, lookupN_upsert_self]
      · have hne : c ≠ c2 := fun he => hcrest (he ▸ h2)
        rw [hred]
        refine hupd c2 cn2 h2 ?_
        rw [lookupN_upsert_other _ _ _ _ hne, hcn2]

theorem handleDeleteNode_promote (m : MindMap) (nodeId : String) (node : MindMapNode)
    (hroot : ¬ nodeId = m.rootId) (hn : lookupN m.nodes nodeId = some node) :
    handleDeleteNode m nodeId false =
      ((promoteStep m nodeId node).map fun n1 => eraseKey n1 nodeId).bind
        (deleteFinal m nodeId node) := by
  simp only [handleDeleteNode, if_neg hroot, hn, Bool.false_eq_true, if_false]

theorem promoteStep_empty (m : MindMap) (nodeId : String) (node : MindMapNode)
    (hch : node.children = []) : promoteStep m nodeId node = some m.nodes := by
  cases hq : node.parentId <;> simp [promoteStep, hq, hch]

theorem promoteStep_eq (m : MindMap) (nodeId q : String) (node qn : MindMapNode)
    (hq : node.parentId = some q) (hqe : q ≠ "") (hne : node.children ≠ [])
    (hqn : lookupN m.nodes q = some qn) :
    promoteStep m nodeId node =
      some (upsert (promoteChildren (some q) node.children m.nodes) q
        { qn with children := filterOut nodeId qn.children ++ node.children }) := by
  cases hch : node.children with
  | nil => exact absurd hch hne
  | cons c0 cs0 => simp only [promoteStep, hq, hch, if_neg hqe, hqn]

/-- Full characterisation of the promote-delete on an invariant-satisfying
map: the node is removed, each direct child is reparented to the former
parent q, q receives "former children without id, then the promoted
children" with no duplicates, and every other node is untouched. -/
theorem delete_promote_spec (m : MindMap) (nodeId q : String) (n qn : MindMapNode)
    (hinv : TreeInv m) (hroot : nodeId ≠ m.rootId)
    (hn : lookupN m.nodes nodeId = some n)
    (hq : n.parentId = some q) (hqe : q ≠ "")
    (hqn : lookupN m.nodes q = some qn) :
    ∃ m2, handleDeleteNode m nodeId false = some m2 ∧
      lookupN m2.nodes nodeId = none ∧
      (∀ c cn, c ∈ n.children → lookupN m.nodes c = some cn →
        lookupN m2.nodes c = some { cn with parentId := some q }) ∧
      (∃ qn2, lookupN m2.nodes q = some qn2 ∧
        qn2.children = filterOut nodeId qn.children ++ n.children ∧
        qn2.parentId = qn.parentId ∧
        (∀ x, countOcc x qn2.children ≤ 1)) ∧
      (∀ k, k ≠ nodeId → k ≠ q → k ∉ n.children →
        lookupN m2.nodes k = lookupN m.nodes k) ∧
      m2.rootId = m.rootId ∧ m2.connections = m.connections := by
  obtain ⟨hnd, hcons, hrn, hac⟩ := hinv
  have hL := consistent_to_L hcons
  have hqid : q ≠ nodeId := by
    rintro rfl
    exact no_self_parent hac hn hq
  have hq_not_child : q ∉ n.children := by
    intro hqc
    rcases (hL nodeId n hn).2 q hqc with ⟨qn1, hqn1, hqp⟩
    rw [hqn] at hqn1
    injection hqn1 with hqn1
    subst hqn1
    exact no_two_cycle hac hn hq hqn hqp
  have hid_not_child : nodeId ∉ n.children := by
    intro hic
    rcases (hL nodeId n hn).2 nodeId hic with ⟨cn1, hcn1, hcp⟩
    rw [hn] at hcn1
    injection hcn1 with hcn1
    subst hcn1
    exact no_self_parent hac hn hcp
  have hkids_count : ∀ c ∈ n.children, countOcc c n.children = 1 := by
    intro c hc
    rcases (hL nodeId n hn).2 c hc with ⟨cn1, hcn1, hcp⟩
    rcases (hL c cn1 hcn1).1 nodeId hcp with ⟨pn, hpn, hcount⟩
    rw [hn] at hpn
    injection hpn with hpn
    subst hpn
    exact hcount
  have hkids_nodup : n.children.Nodup := nodup_of_countOcc n.children hkids_count
  have hkids_some : ∀ c ∈ n.children, (lookupN m.nodes c).isSome = true := by
    intro c hc
    rcases (hL nodeId n hn).2 c hc with ⟨cn1, hcn1, h2⟩
    rw [hcn1]
    rfl
  have hq_count : ∀ x ∈ qn.children, countOcc x qn.children = 1 := by
    intro x hx
    rcases (hL q qn hqn).2 x hx with ⟨xn, hxn, hxp⟩
    rcases (hL x xn hxn).1 q hxp with ⟨pn, hpn, hcount⟩
    rw [hqn] at hpn
    injection hpn with hpn
    subst hpn
    exact hcount
  have hdisj : ∀ x, x ∈ qn.children → x ∈ n.children → False := by
    intro x hx1 hx2
    rcases (hL q qn hqn).2 x hx1 with ⟨xn1, hxn1, hxp1⟩
    rcases (hL nodeId n hn).2 x hx2 with ⟨xn2, hxn2, hxp2⟩
    rw [hxn1] at hxn2
    injection hxn2 with hxn2
    subst hxn2
    rw [hxp1] at hxp2
    injection hxp2 with hxp2
    exact hqid hxp2
  have hbound : ∀ x, countOcc x (filterOut nodeId qn.children ++ n.children) ≤ 1 := by
    intro x
    rw [countOcc_append]
    by_cases hx2 : x ∈ n.children
    · have hxid : x ≠ nodeId := fun he => hid_not_child (he ▸ hx2)
      rw [countOcc_filterOut_other nodeId x hxid qn.children,
        (countOcc_eq_zero x qn.children).mpr (fun hx1 => hdisj x hx1 hx2),
        hkids_count x hx2]
    · rw [(countOcc_eq_zero x n.children).mpr hx2]
      by_cases hxid : x = nodeId
      · subst hxid
        rw [countOcc_filterOut_self]
        omega
      · rw [countOcc_filterOut_other nodeId x hxid qn.children]
        by_cases hx1 : x ∈ qn.children
        · rw [hq_count x hx1]
        · rw [(countOcc_eq_zero x qn.children).mpr hx1]
          omega
  by_cases hch : n.children = []
  · have hps : promoteStep m nodeId n = some m.nodes := promoteStep_empty m nodeId n hch
    have hstep : handleDeleteNode m nodeId false =
        deleteFinal m nodeId n (eraseKey m.nodes nodeId) := by
      rw [handleDeleteNode_promote m nodeId n hroot hn, hps]
      rfl
    have hlkq : lookupN (eraseKey m.nodes nodeId) q = some qn := by
      rw [lookupN_eraseKey_other _ _ _ (Ne.symm hqid), hqn]
    have hfin : deleteFinal m nodeId n (eraseKey m.nodes nodeId) =
        some { m with
          nodes := upsert (eraseKey m.nodes nodeId) q
              { qn with children := filterOut nodeId qn.children } } := by
      simp only [deleteFinal, hq, if_neg hqe, hlkq]
    refine ⟨_, hstep.trans hfin, ?_, ?_, ?_, ?_, rfl, rfl⟩
    · show lookupN (upsert (eraseKey m.nodes nodeId) q _) nodeId = none
      rw [lookupN_upsert_other _ _ _ _ hqid, lookupN_eraseKey_self]
    · intro c cn hc hcn
      rw [hch] at hc
      exact absurd hc (by simp)
    · refine ⟨{ qn with children := filterOut nodeId qn.children }, ?_, ?_, rfl, ?_⟩
      · exact lookupN_upsert_self _ _ _
      · show filterOut nodeId qn.children = filterOut nodeId qn.children ++ n.children
        rw [hch, List.append_nil]
      · intro x
        show countOcc x (filterOut nodeId qn.children) ≤ 1
        have := hbound x
        rw [hch, List.append_nil] at this
        exact this
    · intro k hk1 hk2 hk3
      show lookupN (upsert (eraseKey m.nodes nodeId) q _) k = _
      rw [lookupN_upsert_other _ _ _ _ (Ne.symm hk2),
        lookupN_eraseKey_other _ _ _ (Ne.symm hk1)]
  · rcases promoteChildren_spec (some q) n.children m.nodes hkids_nodup hkids_some with
      ⟨hkeep1, hupd1⟩
    have hps := promoteStep_eq m nodeId q n qn hq hqe hch hqn
    have hstep : handleDeleteNode m nodeId false =
        deleteFinal m nodeId n (eraseKey (upsert (promoteChildren (some q) n.children m.nodes) q
          { qn with children := filterOut nodeId qn.children ++ n.children }) nodeId) := by
      rw [handleDeleteNode_promote m nodeId n hroot hn, hps]
      rfl
    have hlkq : lookupN (eraseKey (upsert (promoteChildren (some q) n.children m.nodes) q
        { qn with children := filterOut nodeId qn.children ++ n.children }) nodeId) q
        = some { qn with children := filterOut nodeId qn.children ++ n.children } := by
      rw [lookupN_eraseKey_other _ _ _ (Ne.symm hqid), lookupN_upsert_self]
    have hfin : deleteFinal m nodeId n (eraseKey (upsert (promoteChildren (some q) n.children m.nodes) q
        { qn with children := filterOut nodeId qn.children ++ n.children }) nodeId) =
        some { m with
          nodes := upsert (eraseKey (upsert (promoteChildren (some q) n.children m.nodes) q
                { qn with children := filterOut nodeId qn.children ++ n.children }) nodeId) q
              { qn with children := filterOut nodeId (filterOut nodeId qn.children ++ n.children) } } := by
      simp only [deleteFinal, hq, if_neg hqe, hlkq]
    have hQN2ch : filterOut nodeId (filterOut nodeId qn.children ++ n.children)
        = filterOut nodeId qn.children ++ n.children := by
      rw [filterOut_append, filterOut_idem,
        filterOut_of_not_mem nodeId n.children hid_not_child]
    refine ⟨_, hstep.trans hfin, ?_, ?_, ?_, ?_, rfl, rfl⟩
    · show lookupN (upsert (eraseKey (upsert (promoteChildren (some q) n.children m.nodes) q _) nodeId) q _) nodeId = none
      rw [lookupN_upsert_other _ _ _ _ hqid, lookupN_eraseKey_self]
    · intro c cn hc hcn
      have hcq : q ≠ c := fun he => hq_not_child (he ▸ hc)
      have hcid : nodeId ≠ c := fun he => hid_not_child (he ▸ hc)
      show lookupN (upsert (eraseKey (upsert (promoteChildren (some q) n.children m.nodes) q _) nodeId) q _) c = _
      rw [lookupN_upsert_other _ _ _ _ hcq, lookupN_eraseKey_other _ _ _ hcid,
        lookupN_upsert_other _ _ _ _ hcq]
      exact hupd1 c cn hc hcn
    · refine ⟨{ qn with children := filterOut nodeId (filterOut nodeId qn.children ++ n.children) }, ?_, ?_, rfl, ?_⟩
      · exact lookupN_upsert_self _ _ _
      · show filterOut nodeId (filterOut nodeId qn.children ++ n.children)
          = filterOut nodeId qn.children ++ n.children
        exact hQN2ch
      · intro x
        show countOcc x (filterOut nodeId (filterOut nodeId qn.children ++ n.children)) ≤ 1
        rw [hQN2ch]
        exact hbound x
    · intro k hk1 hk2 hk3
      show lookupN (upsert (eraseKey (upsert (promoteChildren (some q) n.children m.nodes) q _) nodeId) q _) k = _
      rw [lookupN_upsert_other _ _ _ _ (Ne.symm hk2),
        lookupN_eraseKey_other _ _ _ (Ne.symm hk1),
        lookupN_upsert_other _ _ _ _ (Ne.symm hk2)]
      exact hkeep1 k hk3

/-- A tree whose root is keyed by the empty string: root "" → x → y.
JavaScript treats "" as falsy, so the source's `if (node.parentId)`
guards skip their blocks for children of this root. -/
def mEmptyParent : MindMap where
  nodes := [("", mkNode "" none ["x"]),
            ("x", mkNode "x" (some "") ["y"]),
            ("y", mkNode "y" (some "x") [])]
  rootId := ""
  connections := []

/-- C3 (counterexample): the map with root keyed "" satisfies the tree
invariants, yet deleteNode("x", cascade=false) does not promote: the
empty-string parent id is falsy, so the source skips both the reparenting
block and the final children filter — the direct child y keeps the
deleted "x" as its parentId and the former parent's children list still
holds the deleted id and not the promoted child. -/
theorem c3_counterexample :
    TreeInv mEmptyParent ∧ "x" ≠ mEmptyParent.rootId ∧
    (∃ m2, handleDeleteNode mEmptyParent "x" false = some m2 ∧
      (lookupN m2.nodes "y").map MindMapNode.parentId = some (some "x") ∧
      (lookupN m2.nodes "").map MindMapNode.children = some ["x"]) := by
  refine ⟨⟨by decide, by decide, by decide,
    ⟨fun k => if k = "" then 0 else if k = "x" then 1 else 2, by decide⟩⟩, by decide,
    ⟨{ nodes := [("", mkNode "" none ["x"]), ("y", mkNode "y" (some "x") [])],
       rootId := "", connections := [] }, by decide, by decide, by decide⟩⟩

/-- C3 (amended): on a map satisfying the tree invariants,
deleteNode(id, cascade=false) for a present non-root id whose parent key
is not the empty string (for an empty-string parent the JavaScript falsy
test skips the whole promote block) succeeds, removes exactly the node,
reparents each direct child to the node's former parent q, gives q the
children list "former children without id, then the promoted children"
with no duplicates, and leaves every other node untouched. -/
theorem c3_amended (m : MindMap) (nodeId q : String) (n qn : MindMapNode)
    (hinv : TreeInv m) (hroot : nodeId ≠ m.rootId)
    (hn : lookupN m.nodes nodeId = some n)
    (hq : n.parentId = some q) (hqe : q ≠ "")
    (hqn : lookupN m.nodes q = some qn) :
    ∃ m2, handleDeleteNode m nodeId false = some m2 ∧
      lookupN m2.nodes nodeId = none ∧
      (∀ c cn, c ∈ n.children → lookupN m.nodes c = some cn →
        lookupN m2.nodes c = some { cn with parentId := some q }) ∧
      (∃ qn2, lookupN m2.nodes q = some qn2 ∧
        qn2.children = filterOut nodeId qn.children ++ n.children ∧
        qn2.parentId = qn.parentId ∧
        (∀ x, countOcc x qn2.children ≤ 1)) ∧
      (∀ k, k ≠ nodeId → k ≠ q → k ∉ n.children →
        lookupN m2.nodes k = lookupN m.nodes k) ∧
      m2.rootId = m.rootId ∧ m2.connections = m.connections :=
  delete_promote_spec m nodeId q n qn hinv hroot hn hq hqe hqn

/-- Witness for C3 (amended): deleting a (child of r, parent of b)
without cascade on the chain r → a → b. -/
theorem c3_amended_witness :
    TreeInv mChain ∧ "a" ≠ mChain.rootId ∧
    lookupN mChain.nodes "a" = some (mkNode "a" (some "r") ["b"]) ∧
    (mkNode "a" (some "r") ["b"]).parentId = some "r" ∧
    lookupN mChain.nodes "r" = some (mkNode "r" none ["a"]) ∧
    (∃ m2, handleDeleteNode mChain "a" false = some m2 ∧
      lookupN m2.nodes "a" = none ∧
      (∀ c cn, c ∈ (mkNode "a" (some "r") ["b"]).children →
        lookupN mChain.nodes c = some cn →
        lookupN m2.nodes c = some { cn with parentId := some "r" }) ∧
      (∃ qn2, lookupN m2.nodes "r" = some qn2 ∧
        qn2.children = filterOut "a" (mkNode "r" none ["a"]).children
          ++ (mkNode "a" (some "r") ["b"]).children ∧
        qn2.parentId = (mkNode "r" none ["a"]).parentId ∧
        (∀ x, countOcc x qn2.children ≤ 1)) ∧
      (∀ k, k ≠ "a" → k ≠ "r" → k ∉ (mkNode "a" (some "r") ["b"]).children →
        lookupN m2.nodes k = lookupN mChain.nodes k) ∧
      m2.rootId = mChain.rootId ∧ m2.connections = mChain.connections) :=
  ⟨⟨by decide, by decide, by decide,
     ⟨fun k => if k = "r" then 0 else if k = "a" then 1 else 2, by decide⟩⟩,
   by decide, by decide, by decide, by decide,
   c3_amended mChain "a" "r" (mkNode "a" (some "r") ["b"]) (mkNode "r" none ["a"])
     ⟨by decide, by decide, by decide,
       ⟨fun k => if k = "r" then 0 else if k = "a" then 1 else 2, by decide⟩⟩
     (by decide) (by decide) (by decide) (by decide) (by decide)⟩

/-! ## Claim C1: operations, sequences and invariant preservation -/

/-- A user command on the node store. -/
inductive MMOp where
  | addChild (parentKey newId : String)
  | update (nodeId : String) (u : NodeUpdates)
  | delete (nodeId : String) (cascade : Bool)

/-- Run one command, `none` modelling a throw. -/
def rawApply (m : MindMap) : MMOp → Option MindMap
  | .addChild p nid => handleAddChild m p nid
  | .update nodeId u => handleUpdateNode m nodeId u
  | .delete nodeId c => handleDeleteNode m nodeId c

/-- In the app a throw inside the updater leaves the state unchanged. -/
def applyOp (m : MindMap) (op : MMOp) : MindMap := (rawApply m op).getD m

def applyOps (m : MindMap) (ops : List MMOp) : MindMap := ops.foldl applyOp m

/-- Updates that keep the stored structure sound: they never overwrite the
children list and never null the parentId. -/
def SafeUpd (u : NodeUpdates) : Prop :=
  u.childrenField = none ∧ u.parentIdField ≠ some none

/-- Which commands the amended claim admits at a given state: addChild's
generated id must be fresh and non-empty, update must target a present
node with a safe update whose new parent (if any) is a non-empty id (the
empty string is falsy in the source's guards) that is not the node or one
of its descendants. -/
def GoodOp (m : MindMap) : MMOp → Prop
  | .addChild _ nid => lookupN m.nodes nid = none ∧ nid ≠ ""
  | .update nodeId u => SafeUpd u ∧ lookupN m.nodes nodeId ≠ none ∧
      (∀ np, u.parentIdField = some (some np) → np ≠ "" ∧ ¬ ReachR m.nodes nodeId np)
  | .delete _ _ => True

def GoodSeq : MindMap → List MMOp → Prop
  | _, [] => True
  | m, op :: rest => GoodOp m op ∧ GoodSeq (applyOp m op) rest

/-! ### Reachability and consistency helpers -/

/-- Last-step inversion: a reached strict descendant is a child of some
reached node. -/
theorem ReachR.last_step {nodes : NodeMap} {a k : String}
    (h : ReachR nodes a k) (hne : k ≠ a) :
    ∃ x nx, ReachR nodes a x ∧ lookupN nodes x = some nx ∧ k ∈ nx.children := by
  cases h with
  | refl => exact absurd rfl hne
  | step hr hl hm => exact ⟨_, _, hr, hl, hm⟩

/-- Under consistency, the parent of a reached strict descendant is
itself reached. -/
theorem reach_parent {nodes : NodeMap} (hc : ConsistentL nodes) {a k r : String}
    {kn : MindMapNode} (h : ReachR nodes a k) (hne : k ≠ a)
    (hk : lookupN nodes k = some kn) (hr : kn.parentId = some r) :
    ReachR nodes a r := by
  rcases h.last_step hne with ⟨x, nx, hx, hlx, hmx⟩
  rcases (hc x nx hlx).2 k hmx with ⟨kn2, hk2, hp2⟩
  rw [hk] at hk2
  injection hk2 with hk2
  subst hk2
  rw [hr] at hp2
  injection hp2 with hp2
  subst hp2
  exact hx

/-- Under consistency, reachability extends from a node's parent down to
the node. -/
theorem reach_of_parent_reach {nodes : NodeMap} (hc : ConsistentL nodes) {a k r : String}
    {kn : MindMapNode} (hk : lookupN nodes k = some kn) (hr : kn.parentId = some r)
    (h : ReachR nodes a r) : ReachR nodes a k := by
  rcases (hc k kn hk).1 r hr with ⟨rn, hrn, hcount⟩
  exact ReachR.step h hrn (mem_of_countOcc_one k rn.children hcount)

/-! ### Structure-preserving updates -/

/-- `l2` has the same keys as `l1`, with unchanged children and parentId
everywhere (only cosmetic fields may differ). -/
def SameStructure (l1 l2 : NodeMap) : Prop :=
  ∀ k, (lookupN l1 k = none ∧ lookupN l2 k = none) ∨
    (∃ a b, lookupN l1 k = some a ∧ lookupN l2 k = some b ∧
      b.children = a.children ∧ b.parentId = a.parentId)

theorem consistentL_of_sameStructure {l1 l2 : NodeMap} (hs : SameStructure l1 l2)
    (h : ConsistentL l1) : ConsistentL l2 := by
  intro k n hk
  rcases hs k with ⟨_, h2⟩ | ⟨a, b, ha, hb, hch, hpid⟩
  · rw [h2] at hk
    exact Option.noConfusion hk
  · rw [hb] at hk
    injection hk with hk
    subst hk
    constructor
    · intro p hp
      rcases (h k a ha).1 p (by rw [← hpid, hp]) with ⟨pn, hpn, hcount⟩
      rcases hs p with ⟨hp1, _⟩ | ⟨pa, pb, hpa, hpb, hpch, _⟩
      · rw [hp1] at hpn
        exact Option.noConfusion hpn
      · rw [hpa] at hpn
        injection hpn with hpn
        subst hpn
        exact ⟨pb, hpb, by rw [hpch]; exact hcount⟩
    · intro c hc
      rw [hch] at hc
      rcases (h k a ha).2 c hc with ⟨cn, hcn, hcp⟩
      rcases hs c with ⟨hc1, _⟩ | ⟨ca, cb, hca, hcb, _, hcpid⟩
      · rw [hc1] at hcn
        exact Option.noConfusion hcn
      · rw [hca] at hcn
        injection hcn with hcn
        subst hcn
        exact ⟨cb, hcb, by rw [hcpid]; exact hcp⟩

theorem rootedL_of_sameStructure {l1 l2 : NodeMap} {root : String}
    (hs : SameStructure l1 l2)
    (h : ∀ k n, lookupN l1 k = some n → n.parentId = none → k = root) :
    ∀ k n, lookupN l2 k = some n → n.parentId = none → k = root := by
  intro k n hk hp
  rcases hs k with ⟨_, h2⟩ | ⟨a, b, ha, hb, _, hpid⟩
  · rw [h2] at hk
    exact Option.noConfusion hk
  · rw [hb] at hk
    injection hk with hk
    subst hk
    exact h k a ha (by rw [← hpid, hp])

theorem acycL_of_sameStructure {l1 l2 : NodeMap} {h : String → Nat}
    (hs : SameStructure l1 l2) (ha : AcycL l1 h) : AcycL l2 h := by
  intro k n p pn hk hp hpl
  rcases hs k with ⟨_, h2⟩ | ⟨a, b, hla, hlb, _, hpid⟩
  · rw [h2] at hk
    exact Option.noConfusion hk
  · rw [hlb] at hk
    injection hk with hk
    subst hk
    rcases hs p with ⟨_, h3⟩ | ⟨pa, pb, hpa, hpb, _, _⟩
    · rw [h3] at hpl
      exact Option.noConfusion hpl
    · exact ha k a p pa hla (by rw [← hpid, hp]) hpa

/-! ### Key uniqueness is preserved by every operation -/

theorem promoteChildren_keysNodup (pid : Option String) : ∀ (l : List String)
    (nodes : NodeMap), KeysNodup nodes → KeysNodup (promoteChildren pid l nodes) := by
  intro l
  induction l with
  | nil =>
    intro nodes hnd
    exact hnd
  | cons c rest ih =>
    intro nodes hnd
    rw [promoteChildren]
    split
    next => exact ih _ (keysNodup_upsert _ _ _ hnd)
    next cn hcn => exact ih _ (keysNodup_upsert _ _ _ hnd)

theorem handleAddChild_keysNodup (m : MindMap) (p nid : String) (m2 : MindMap)
    (h : handleAddChild m p nid = some m2) (hnd : KeysNodup m.nodes) :
    KeysNodup m2.nodes := by
  rw [handleAddChild] at h
  split at h
  next => exact absurd h (by simp)
  next pn hpn =>
    injection h with h
    subst h
    exact keysNodup_upsert _ _ _ (keysNodup_upsert _ _ _ hnd)

theorem handleUpdateNode_keysNodup (m : MindMap) (nodeId : String) (u : NodeUpdates)
    (m2 : MindMap) (h : handleUpdateNode m nodeId u = some m2) (hnd : KeysNodup m.nodes) :
    KeysNodup m2.nodes := by
  rw [handleUpdateNode] at h
  split at h
  next newPid hu =>
    split at h
    next => exact absurd h (by simp)
    next n hn =>
      split at h
      · injection h with h
        subst h
        exact keysNodup_upsert _ _ _ hnd
      · rcases Option.bind_eq_some.mp h with ⟨n1, h1, h2⟩
        rcases Option.map_eq_some'.mp h2 with ⟨n2, h3, h4⟩
        have hn1 : KeysNodup n1 := by
          rw [updStep1] at h1
          split at h1
          · injection h1 with h1
            subst h1
            exact hnd
          next oldPid hpid =>
            split at h1
            · injection h1 with h1
              subst h1
              exact hnd
            · split at h1
              next => exact absurd h1 (by simp)
              next oldParent hop =>
                injection h1 with h1
                subst h1
                exact keysNodup_upsert _ _ _ hnd
        have hn2 : KeysNodup n2 := by
          rw [updStep2.eq_def] at h3
          split at h3
          · injection h3 with h3
            subst h3
            exact hn1
          next np =>
            split at h3
            · injection h3 with h3
              subst h3
              exact hn1
            · split at h3
              next => exact absurd h3 (by simp)
              next newParent hnpl =>
                injection h3 with h3
                subst h3
                exact keysNodup_upsert _ _ _ hn1
        rw [← h4]
        exact keysNodup_upsert _ _ _ hn2
  next hu =>
    injection h with h
    subst h
    exact keysNodup_upsert _ _ _ hnd

theorem handleDeleteNode_keysNodup (m : MindMap) (nodeId : String) (dc : Bool)
    (m2 : MindMap) (h : handleDeleteNode m nodeId dc = some m2) (hnd : KeysNodup m.nodes) :
    KeysNodup m2.nodes := by
  by_cases hroot : nodeId = m.rootId
  · rw [handleDeleteNode, if_pos hroot] at h
    injection h with h
    subst h
    exact hnd
  · cases hn : lookupN m.nodes nodeId with
    | none =>
      rw [handleDeleteNode, if_neg hroot, hn] at h
      exact absurd h (by simp)
    | some node =>
      have hfinal : ∀ nn : NodeMap, KeysNodup nn →
          deleteFinal m nodeId node nn = some m2 → KeysNodup m2.nodes := by
        intro nn hnn hfin
        rw [deleteFinal] at hfin
        split at hfin
        · injection hfin with hfin
          subst hfin
          exact hnn
        next pid hp =>
          split at hfin
          · injection hfin with hfin
            subst hfin
            exact hnn
          · split at hfin
            next => exact absurd hfin (by simp)
            next parent hpl =>
              injection hfin with hfin
              subst hfin
              exact keysNodup_upsert _ _ _ hnn
      cases dc with
      | true =>
        rw [handleDeleteNode_cascade m nodeId node hroot hn] at h
        rcases Option.bind_eq_some.mp h with ⟨nn, h1, h2⟩
        exact hfinal nn (keysNodup_sublist (deleteList_sublist _ _ _ _ h1) hnd) h2
      | false =>
        rw [handleDeleteNode_promote m nodeId node hroot hn] at h
        rcases Option.bind_eq_some.mp h with ⟨nn, h1, h2⟩
        rcases Option.map_eq_some'.mp h1 with ⟨n1, hps, hek⟩
        have hn1 : KeysNodup n1 := by
          rw [promoteStep] at hps
          split at hps
          next pid c0 cs0 hpid hch =>
            split at hps
            · injection hps with hps
              subst hps
              exact hnd
            · split at hps
              next => exact absurd hps (by simp)
              next parentNode hpl =>
                injection hps with hps
                rw [← hps]
                exact keysNodup_upsert _ _ _
                  (promoteChildren_keysNodup _ _ _ hnd)
          next =>
            injection hps with hps
            subst hps
            exact hnd
        rw [← hek] at h2
        exact hfinal _ (keysNodup_eraseKey _ _ hn1) h2

/-! ### The working form of the invariants -/

def WInv (m : MindMap) : Prop :=
  KeysNodup m.nodes ∧ ConsistentL m.nodes ∧
  (∀ k n, lookupN m.nodes k = some n → n.parentId = none → k = m.rootId) ∧
  ∃ h, AcycL m.nodes h

theorem treeInv_to_W {m : MindMap} (h : TreeInv m) : WInv m := by
  obtain ⟨hnd, hc, hr, ⟨hf, hcert⟩⟩ := h
  exact ⟨hnd, consistent_to_L hc, rootedNull_to_L hr, hf, acycCert_to_L hcert⟩

theorem w_to_treeInv {m : MindMap} (h : WInv m) : TreeInv m := by
  obtain ⟨hnd, hc, hr, ⟨hf, hl⟩⟩ := h
  exact ⟨hnd, L_to_consistent hnd hc, L_to_rootedNull hnd hr, hf, L_to_acycCert hnd hl⟩

/-! ### addChild preserves the invariants -/

theorem wInv_addChild (m : MindMap) (p nid : String) (m2 : MindMap)
    (hw : WInv m) (hE : lookupN m.nodes "" = none)
    (hfresh : lookupN m.nodes nid = none) (hne0 : nid ≠ "")
    (h : handleAddChild m p nid = some m2) :
    WInv m2 ∧ lookupN m2.nodes "" = none := by
  obtain ⟨hnd, hc, hr, hf, hA⟩ := hw
  cases hp : lookupN m.nodes p with
  | none =>
    rw [handleAddChild, hp] at h
    exact absurd h (by simp)
  | some pn =>
    rw [handleAddChild_spec m p nid pn hp] at h
    injection h with h
    subst h
    have hne : p ≠ nid := by
      intro he
      rw [he, hfresh] at hp
      exact Option.noConfusion hp
    have hfreshK : ∀ (r : String) (rn : MindMapNode), lookupN m.nodes r = some rn → r ≠ nid := by
      intro r rn hrn he
      rw [he, hfresh] at hrn
      exact Option.noConfusion hrn
    have hnotchild : ∀ (x : String) (xn : MindMapNode), lookupN m.nodes x = some xn →
        nid ∉ xn.children := by
      intro x xn hx hmem
      rcases (hc x xn hx).2 nid hmem with ⟨cn, hcn, _⟩
      rw [hfresh] at hcn
      exact Option.noConfusion hcn
    have lkA : lookupN (upsert (upsert m.nodes nid (addChildNewNode p nid pn)) p
        { pn with children := pn.children ++ [nid] }) nid = some (addChildNewNode p nid pn) := by
      rw [lookupN_upsert_other _ _ _ _ hne, lookupN_upsert_self]
    have lkB : lookupN (upsert (upsert m.nodes nid (addChildNewNode p nid pn)) p
        { pn with children := pn.children ++ [nid] }) p
        = some { pn with children := pn.children ++ [nid] } := lookupN_upsert_self _ _ _
    have lkC : ∀ k, k ≠ nid → k ≠ p → lookupN (upsert (upsert m.nodes nid
        (addChildNewNode p nid pn)) p { pn with children := pn.children ++ [nid] }) k
        = lookupN m.nodes k := by
      intro k h1 h2
      rw [lookupN_upsert_other _ _ _ _ (Ne.symm h2), lookupN_upsert_other _ _ _ _ (Ne.symm h1)]
    have hcnid : countOcc nid (pn.children ++ [nid]) = 1 := by
      rw [countOcc_append, (countOcc_eq_zero nid pn.children).mpr (hnotchild p pn hp)]
      simp [countOcc]
    have hcother : ∀ x, x ≠ nid → countOcc x (pn.children ++ [nid]) = countOcc x pn.children := by
      intro x hx
      rw [countOcc_append]
      have h0 : countOcc x [nid] = 0 := by
        simp [countOcc, Ne.symm hx]
      omega
    refine ⟨⟨keysNodup_upsert _ _ _ (keysNodup_upsert _ _ _ hnd), ?_, ?_, ?_⟩, ?_⟩
    · -- consistency
      intro k w hk
      by_cases hkn : nid = k
      · subst hkn
        rw [lkA] at hk
        injection hk with hk
        subst hk
        constructor
        · intro r hrp
          have hr2 : p = r := by
            have he : (addChildNewNode p nid pn).parentId = some p := rfl
            rw [he] at hrp
            injection hrp with hrp
          subst hr2
          exact ⟨_, lkB, hcnid⟩
        · intro c hcmem
          have he : (addChildNewNode p nid pn).children = [] := rfl
          rw [he] at hcmem
          exact absurd hcmem (List.not_mem_nil c)
      · by_cases hkp : p = k
        · subst hkp
          rw [lkB] at hk
          injection hk with hk
          subst hk
          constructor
          · intro r hrp
            have hrp2 : pn.parentId = some r := hrp
            rcases (hc p pn hp).1 r hrp2 with ⟨rn, hrn, hcount⟩
            have hrnid : r ≠ nid := hfreshK r rn hrn
            by_cases hrk : p = r
            · subst hrk
              rw [hp] at hrn
              injection hrn with hrn
              subst hrn
              exact ⟨_, lkB, by rw [hcother p (Ne.symm hkn)]; exact hcount⟩
            · exact ⟨rn, by rw [lkC r hrnid (fun he => hrk he.symm)]; exact hrn, hcount⟩
          · intro c hcmem
            have hcmem2 : c ∈ pn.children ++ [nid] := hcmem
            rcases List.mem_append.mp hcmem2 with hc1 | hc2
            · rcases (hc p pn hp).2 c hc1 with ⟨cn, hcn, hcp⟩
              have hcnid2 : c ≠ nid := hfreshK c cn hcn
              by_cases hck : p = c
              · subst hck
                rw [hp] at hcn
                injection hcn with hcn
                subst hcn
                exact ⟨_, lkB, hcp⟩
              · exact ⟨cn, by rw [lkC c hcnid2 (fun he => hck he.symm)]; exact hcn, hcp⟩
            · have hcn2 : c = nid := by simpa using hc2
              subst hcn2
              exact ⟨_, lkA, rfl⟩
        · rw [lkC k (fun he => hkn he.symm) (fun he => hkp he.symm)] at hk
          constructor
          · intro r hrp
            rcases (hc k w hk).1 r hrp with ⟨rn, hrn, hcount⟩
            have hrnid : r ≠ nid := hfreshK r rn hrn
            by_cases hrk : p = r
            · subst hrk
              rw [hp] at hrn
              injection hrn with hrn
              subst hrn
              exact ⟨_, lkB, by rw [hcother k (fun he => hkn he.symm)]; exact hcount⟩
            · exact ⟨rn, by rw [lkC r hrnid (fun he => hrk he.symm)]; exact hrn, hcount⟩
          · intro c hcmem
            rcases (hc k w hk).2 c hcmem with ⟨cn, hcn, hcp⟩
            have hcnid2 : c ≠ nid := hfreshK c cn hcn
            by_cases hck : p = c
            · subst hck
              rw [hp] at hcn
              injection hcn with hcn
              subst hcn
              exact ⟨_, lkB, hcp⟩
            · exact ⟨cn, by rw [lkC c hcnid2 (fun he => hck he.symm)]; exact hcn, hcp⟩
    · -- only the root keeps a null parentId
      intro k w hk hnone
      by_cases hkn : nid = k
      · subst hkn
        rw [lkA] at hk
        injection hk with hk
        subst hk
        exact absurd hnone (by simp [addChildNewNode])
      · by_cases hkp : p = k
        · subst hkp
          rw [lkB] at hk
          injection hk with hk
          subst hk
          exact hr p pn hp hnone
        · rw [lkC k (fun he => hkn he.symm) (fun he => hkp he.symm)] at hk
          exact hr k w hk hnone
    · -- acyclicity certificate
      refine ⟨fun k => if k = nid then hf p + 1 else hf k, ?_⟩
      intro k w r rn hk hpid hrl
      by_cases hkn : nid = k
      · subst hkn
        rw [lkA] at hk
        injection hk with hk
        subst hk
        have hr2 : p = r := by
          have he : (addChildNewNode p nid pn).parentId = some p := rfl
          rw [he] at hpid
          injection hpid with hpid
        subst hr2
        simpa [hne] using Nat.lt_succ_self (hf p)
      · have hk_old : ∃ wo : MindMapNode, lookupN m.nodes k = some wo ∧
            wo.parentId = w.parentId := by
          by_cases hkp : p = k
          · subst hkp
            rw [lkB] at hk
            injection hk with hk
            exact ⟨pn, hp, by rw [← hk]⟩
          · rw [lkC k (fun he => hkn he.symm) (fun he => hkp he.symm)] at hk
            exact ⟨w, hk, rfl⟩
        rcases hk_old with ⟨wo, hwo, hwop⟩
        have hpid2 : wo.parentId = some r := by rw [hwop, hpid]
        rcases (hc k wo hwo).1 r hpid2 with ⟨rn0, hrn0, _⟩
        have hrnid : r ≠ nid := hfreshK r rn0 hrn0
        have hknid : k ≠ nid := fun he => hkn he.symm
        simp only [if_neg hknid, if_neg hrnid]
        exact hA k wo r rn0 hwo hpid2 hrn0
    · -- no node is keyed by the empty string
      have hpe : p ≠ "" := by
        intro he
        rw [he, hE] at hp
        exact Option.noConfusion hp
      rw [lkC "" (fun he => hne0 he.symm) (fun he => hpe he.symm), hE]

/-! ### More reachability facts -/

/-- Along children paths the rank strictly increases (under consistency
and a rank certificate). -/
theorem reach_rank {nodes : NodeMap} {hf : String → Nat} (hc : ConsistentL nodes)
    (hA : AcycL nodes hf) {a b : String} (h : ReachR nodes a b) :
    a = b ∨ hf a < hf b := by
  induction h with
  | refl => exact Or.inl rfl
  | step hr hl hm ih =>
    rename_i x c n
    rcases (hc x n hl).2 c hm with ⟨cn, hcn, hcp⟩
    have hlt : hf x < hf c := hA c cn x n hcn hcp hl
    rcases ih with he | hlt2
    · rw [he]
      exact Or.inr hlt
    · exact Or.inr (by omega)

/-- Under the full invariant every present node is reachable from the
root by following children lists. -/
theorem root_reaches {nodes : NodeMap} {root : String} {hf : String → Nat}
    (hc : ConsistentL nodes)
    (hr : ∀ k n, lookupN nodes k = some n → n.parentId = none → k = root)
    (hA : AcycL nodes hf) :
    ∀ k n, lookupN nodes k = some n → ReachR nodes root k := by
  have main : ∀ v k n, hf k = v → lookupN nodes k = some n → ReachR nodes root k := by
    intro v
    induction v using Nat.strong_induction_on with
    | _ v ih =>
      intro k n hv hk
      cases hp : n.parentId with
      | none =>
        rw [← hr k n hk hp]
        exact ReachR.refl
      | some p =>
        rcases (hc k n hk).1 p hp with ⟨pn, hpn, hcount⟩
        have hlt : hf p < hf k := hA k n p pn hk hp hpn
        have hre : ReachR nodes root p := ih (hf p) (by omega) p pn rfl hpn
        exact ReachR.step hre hpn (mem_of_countOcc_one k pn.children hcount)
  intro k n hk
  exact main (hf k) k n rfl hk

/-! ### Cosmetic updates -/

/-- Replacing one present node by a node with the same children and
parentId preserves the structure. -/
theorem sameStructure_upsert_cosmetic (nodes : NodeMap) (k : String)
    (n n2 : MindMapNode) (hk : lookupN nodes k = some n)
    (hch : n2.children = n.children) (hpid : n2.parentId = n.parentId) :
    SameStructure nodes (upsert nodes k n2) := by
  intro x
  by_cases hx : k = x
  · subst hx
    exact Or.inr ⟨n, n2, hk, lookupN_upsert_self _ _ _, hch, hpid⟩
  · rw [lookupN_upsert_other _ _ _ _ hx]
    cases he : lookupN nodes x with
    | none => exact Or.inl ⟨rfl, rfl⟩
    | some a => exact Or.inr ⟨a, a, rfl, rfl, rfl, rfl⟩

theorem wInv_of_sameStructure {m m2 : MindMap} (hnd2 : KeysNodup m2.nodes)
    (hroot : m2.rootId = m.rootId) (hs : SameStructure m.nodes m2.nodes)
    (hc : ConsistentL m.nodes)
    (hr : ∀ k n, lookupN m.nodes k = some n → n.parentId = none → k = m.rootId)
    (hA : ∃ hfr, AcycL m.nodes hfr) : WInv m2 := by
  obtain ⟨hfr, hAr⟩ := hA
  refine ⟨hnd2, consistentL_of_sameStructure hs hc, ?_, hfr, acycL_of_sameStructure hs hAr⟩
  rw [hroot]
  exact rootedL_of_sameStructure hs hr

theorem mergeNode_children_safe (n : MindMapNode) (u : NodeUpdates)
    (hs : u.childrenField = none) : (mergeNode n u).children = n.children := by
  simp [mergeNode, hs]

theorem mergeNode_parentId_none (n : MindMapNode) (u : NodeUpdates)
    (hu : u.parentIdField = none) : (mergeNode n u).parentId = n.parentId := by
  simp [mergeNode, hu]

theorem mergeNode_parentId_some (n : MindMapNode) (u : NodeUpdates) (v : Option String)
    (hu : u.parentIdField = some v) : (mergeNode n u).parentId = v := by
  simp [mergeNode, hu]

/-! ### updateNode preserves the invariants (safe updates, no cyclic reparent) -/

theorem wInv_update (m : MindMap) (nodeId : String) (u : NodeUpdates) (m2 : MindMap)
    (hw : WInv m) (hsafe : SafeUpd u) (hE : lookupN m.nodes "" = none)
    (hnocyc : ∀ np, u.parentIdField = some (some np) →
      np ≠ "" ∧ ¬ ReachR m.nodes nodeId np)
    (n : MindMapNode) (hn : lookupN m.nodes nodeId = some n)
    (h : handleUpdateNode m nodeId u = some m2) :
    WInv m2 ∧ lookupN m2.nodes "" = none := by
  classical
  obtain ⟨hnd, hc, hr, hf, hA⟩ := hw
  have hnd2 : KeysNodup m2.nodes := handleUpdateNode_keysNodup m nodeId u m2 h hnd
  have hnidE : nodeId ≠ "" := by
    intro he
    rw [he, hE] at hn
    exact Option.noConfusion hn
  cases hu : u.parentIdField with
  | none =>
    simp only [handleUpdateNode, hu, hn, Option.getD_some] at h
    injection h with h
    subst h
    refine ⟨wInv_of_sameStructure hnd2 ?_ ?_ hc hr ⟨hf, hA⟩, ?_⟩
    · rfl
    · exact sameStructure_upsert_cosmetic m.nodes nodeId n (mergeNode n u) hn
        (mergeNode_children_safe n u hsafe.1) (mergeNode_parentId_none n u hu)
    · show lookupN (upsert m.nodes nodeId (mergeNode n u)) "" = none
      rw [lookupN_upsert_other _ _ _ _ hnidE, hE]
  | some newPid =>
    simp only [handleUpdateNode, hu, hn] at h
    by_cases heqp : newPid = n.parentId
    · rw [if_pos heqp] at h
      injection h with h
      subst h
      have hpid : (mergeNode n u).parentId = n.parentId := by
        rw [mergeNode_parentId_some n u newPid hu, heqp]
      refine ⟨wInv_of_sameStructure hnd2 ?_ ?_ hc hr ⟨hf, hA⟩, ?_⟩
      · rfl
      · exact sameStructure_upsert_cosmetic m.nodes nodeId n (mergeNode n u) hn
          (mergeNode_children_safe n u hsafe.1) hpid
      · show lookupN (upsert m.nodes nodeId (mergeNode n u)) "" = none
        rw [lookupN_upsert_other _ _ _ _ hnidE, hE]
    · rw [if_neg heqp] at h
      have hnpne : newPid ≠ none := by
        intro he
        exact hsafe.2 (by rw [hu, he])
      obtain ⟨np, rfl⟩ : ∃ np, newPid = some np := by
        cases newPid with
        | none => exact absurd rfl hnpne
        | some np => exact ⟨np, rfl⟩
      have hnpe : np ≠ "" := (hnocyc np hu).1
      have hnpR : ¬ ReachR m.nodes nodeId np := (hnocyc np hu).2
      have hnpid : np ≠ nodeId := by
        intro he
        exact hnpR (by rw [he]; exact ReachR.refl)
      rcases Option.bind_eq_some.mp h with ⟨n1, h1, h2⟩
      rcases Option.map_eq_some'.mp h2 with ⟨n2, h3, h4⟩
      rw [updStep1] at h1
      split at h1
      next hq0 =>
        injection h1 with h1
        subst h1
        simp only [updStep2] at h3
        rw [if_neg hnpe] at h3
        split at h3
        next => exact absurd h3 (by simp)
        next npn hnpn =>
          have hrootid : nodeId = m.rootId := hr nodeId n hn hq0
          have hre : ReachR m.nodes m.rootId np := root_reaches hc hr hA np npn hnpn
          rw [← hrootid] at hre
          exact absurd hre hnpR
      next q hq =>
        rcases (hc nodeId n hn).1 q hq with ⟨qn0, hqn0, _⟩
        have hqe : q ≠ "" := by
          intro he
          rw [he, hE] at hqn0
          exact Option.noConfusion hqn0
        rw [if_neg hqe] at h1
        split at h1
        next => exact absurd h1 (by simp)
        next qn hqn =>
          injection h1 with h1
          subst h1
          have hqid : q ≠ nodeId := by
            intro he
            have hx := hA nodeId n q n hn hq (by rw [he]; exact hn)
            rw [he] at hx
            omega
          have hnpq : np ≠ q := by
            intro he
            exact heqp (by rw [hq, he])
          simp only [updStep2] at h3
          rw [if_neg hnpe, lookupN_upsert_other _ _ _ _ (Ne.symm hnpq)] at h3
          split at h3
          next => exact absurd h3 (by simp)
          next npn hnpn =>
            injection h3 with h3
            subst h3
            have hlk2 : lookupN (upsert (upsert m.nodes q
                { qn with children := filterOut nodeId qn.children }) np
                { npn with children := npn.children ++ [nodeId] }) nodeId = some n := by
              rw [lookupN_upsert_other _ _ _ _ hnpid, lookupN_upsert_other _ _ _ _ hqid]
              exact hn
            simp only [hlk2, Option.getD_some] at h4
            have hnodes : m2.nodes = upsert (upsert (upsert m.nodes q
                { qn with children := filterOut nodeId qn.children }) np
                { npn with children := npn.children ++ [nodeId] }) nodeId (mergeNode n u) := by
              rw [← h4]
            have hroot2 : m2.rootId = m.rootId := by rw [← h4]
            have hmch : (mergeNode n u).children = n.children :=
              mergeNode_children_safe n u hsafe.1
            have hmp : (mergeNode n u).parentId = some np :=
              mergeNode_parentId_some n u (some np) hu
            have lkN : lookupN m2.nodes nodeId = some (mergeNode n u) := by
              rw [hnodes]
              exact lookupN_upsert_self _ _ _
            have lkP : lookupN m2.nodes np
                = some { npn with children := npn.children ++ [nodeId] } := by
              rw [hnodes, lookupN_upsert_other _ _ _ _ (Ne.symm hnpid), lookupN_upsert_self]
            have lkQ : lookupN m2.nodes q
                = some { qn with children := filterOut nodeId qn.children } := by
              rw [hnodes, lookupN_upsert_other _ _ _ _ (Ne.symm hqid),
                lookupN_upsert_other _ _ _ _ hnpq, lookupN_upsert_self]
            have lkO : ∀ k, k ≠ nodeId → k ≠ np → k ≠ q →
                lookupN m2.nodes k = lookupN m.nodes k := by
              intro k hx1 hx2 hx3
              rw [hnodes, lookupN_upsert_other _ _ _ _ (Ne.symm hx1),
                lookupN_upsert_other _ _ _ _ (Ne.symm hx2),
                lookupN_upsert_other _ _ _ _ (Ne.symm hx3)]
            have hnidnpn : nodeId ∉ npn.children := by
              intro hmem
              rcases (hc np npn hnpn).2 nodeId hmem with ⟨cn, hcn, hcp⟩
              rw [hn] at hcn
              injection hcn with hcn
              subst hcn
              rw [hq] at hcp
              injection hcp with hcp
              exact hnpq hcp.symm
            have hqchn : q ∉ n.children := by
              intro hmem
              rcases (hc nodeId n hn).2 q hmem with ⟨cn, hcn, hcp⟩
              rw [hqn] at hcn
              injection hcn with hcn
              subst hcn
              have hx1 := hA q qn nodeId n hqn hcp hn
              have hx2 := hA nodeId n q qn hn hq hqn
              omega
            have hnpchn : np ∉ n.children := by
              intro hmem
              exact hnpR (ReachR.step ReachR.refl hn hmem)
            have hnidchn : nodeId ∉ n.children := by
              intro hmem
              rcases (hc nodeId n hn).2 nodeId hmem with ⟨cn, hcn, hcp⟩
              rw [hn] at hcn
              injection hcn with hcn
              subst hcn
              rw [hq] at hcp
              injection hcp with hcp
              exact hqid hcp
            refine ⟨⟨hnd2, ?_, ?_, ?_⟩, ?_⟩
            · -- consistency
              intro k w hk
              by_cases hkn : nodeId = k
              · subst hkn
                rw [lkN] at hk
                injection hk with hk
                subst hk
                constructor
                · intro r hrp
                  rw [hmp] at hrp
                  injection hrp with hrp
                  subst hrp
                  refine ⟨_, lkP, ?_⟩
                  show countOcc nodeId (npn.children ++ [nodeId]) = 1
                  rw [countOcc_append, (countOcc_eq_zero nodeId npn.children).mpr hnidnpn]
                  simp [countOcc]
                · intro c hcmem
                  rw [hmch] at hcmem
                  have hx1 : c ≠ nodeId := fun he => hnidchn (he ▸ hcmem)
                  have hx2 : c ≠ np := fun he => hnpchn (he ▸ hcmem)
                  have hx3 : c ≠ q := fun he => hqchn (he ▸ hcmem)
                  rcases (hc nodeId n hn).2 c hcmem with ⟨cn, hcn, hcp⟩
                  exact ⟨cn, by rw [lkO c hx1 hx2 hx3]; exact hcn, hcp⟩
              · by_cases hkp : np = k
                · subst hkp
                  rw [lkP] at hk
                  injection hk with hk
                  subst hk
                  constructor
                  · intro r hrp
                    have hrp2 : npn.parentId = some r := hrp
                    rcases (hc np npn hnpn).1 r hrp2 with ⟨rn, hrn, hcount⟩
                    by_cases hr1 : nodeId = r
                    · rw [← hr1, hn] at hrn
                      injection hrn with hrn
                      subst hrn
                      exact absurd (ReachR.step ReachR.refl hn
                        (mem_of_countOcc_one np n.children hcount)) hnpR
                    · by_cases hr2 : np = r
                      · have := hA np npn np npn hnpn (by rw [hrp2, ← hr2]) hnpn
                        omega
                      · by_cases hr3 : q = r
                        · rw [← hr3, hqn] at hrn
                          injection hrn with hrn
                          subst hrn
                          refine ⟨_, by rw [← hr3]; exact lkQ, ?_⟩
                          show countOcc np (filterOut nodeId qn.children) = 1
                          rw [countOcc_filterOut_other nodeId np hnpid]
                          exact hcount
                        · refine ⟨rn, ?_, hcount⟩
                          rw [lkO r (fun he => hr1 he.symm) (fun he => hr2 he.symm)
                            (fun he => hr3 he.symm)]
                          exact hrn
                  · intro c hcmem
                    have hcmem2 : c ∈ npn.children ++ [nodeId] := hcmem
                    rcases List.mem_append.mp hcmem2 with hmem | hmem
                    · have hcnid : c ≠ nodeId := fun he => hnidnpn (he ▸ hmem)
                      rcases (hc np npn hnpn).2 c hmem with ⟨cn, hcn, hcp⟩
                      by_cases hcn1 : np = c
                      · rw [← hcn1, hnpn] at hcn
                        injection hcn with hcn
                        subst hcn
                        have := hA np npn np npn hnpn hcp hnpn
                        omega
                      · by_cases hcn2 : q = c
                        · rw [← hcn2, hqn] at hcn
                          injection hcn with hcn
                          subst hcn
                          refine ⟨_, by rw [← hcn2]; exact lkQ, ?_⟩
                          exact hcp
                        · exact ⟨cn, by rw [lkO c hcnid (fun he => hcn1 he.symm)
                            (fun he => hcn2 he.symm)]; exact hcn, hcp⟩
                    · have hceq : c = nodeId := by simpa using hmem
                      rw [hceq]
                      exact ⟨mergeNode n u, lkN, hmp⟩
                · by_cases hkq : q = k
                  · subst hkq
                    rw [lkQ] at hk
                    injection hk with hk
                    subst hk
                    constructor
                    · intro r hrp
                      have hrp2 : qn.parentId = some r := hrp
                      rcases (hc q qn hqn).1 r hrp2 with ⟨rn, hrn, hcount⟩
                      by_cases hr1 : nodeId = r
                      · have hx1 := hA q qn nodeId n hqn (by rw [hrp2, ← hr1]) hn
                        have hx2 := hA nodeId n q qn hn hq hqn
                        omega
                      · by_cases hr2 : np = r
                        · rw [← hr2, hnpn] at hrn
                          injection hrn with hrn
                          subst hrn
                          refine ⟨_, by rw [← hr2]; exact lkP, ?_⟩
                          show countOcc q (npn.children ++ [nodeId]) = 1
                          rw [countOcc_append]
                          have h0 : countOcc q [nodeId] = 0 := by
                            simp [countOcc, Ne.symm hqid]
                          omega
                        · by_cases hr3 : q = r
                          · have := hA q qn q qn hqn (by rw [hrp2, ← hr3]) hqn
                            omega
                          · refine ⟨rn, ?_, hcount⟩
                            rw [lkO r (fun he => hr1 he.symm) (fun he => hr2 he.symm)
                              (fun he => hr3 he.symm)]
                            exact hrn
                    · intro c hcmem
                      have hcmem2 : c ∈ filterOut nodeId qn.children := hcmem
                      rw [mem_filterOut] at hcmem2
                      obtain ⟨hmem, hcnid⟩ := hcmem2
                      rcases (hc q qn hqn).2 c hmem with ⟨cn, hcn, hcp⟩
                      by_cases hcn1 : np = c
                      · rw [← hcn1, hnpn] at hcn
                        injection hcn with hcn
                        subst hcn
                        refine ⟨_, by rw [← hcn1]; exact lkP, ?_⟩
                        exact hcp
                      · by_cases hcn2 : q = c
                        · rw [← hcn2, hqn] at hcn
                          injection hcn with hcn
                          subst hcn
                          have := hA q qn q qn hqn hcp hqn
                          omega
                        · exact ⟨cn, by rw [lkO c hcnid (fun he => hcn1 he.symm)
                            (fun he => hcn2 he.symm)]; exact hcn, hcp⟩
                  · rw [lkO k (fun he => hkn he.symm) (fun he => hkp he.symm)
                      (fun he => hkq he.symm)] at hk
                    constructor
                    · intro r hrp
                      rcases (hc k w hk).1 r hrp with ⟨rn, hrn, hcount⟩
                      by_cases hr1 : nodeId = r
                      · rw [← hr1, hn] at hrn
                        injection hrn with hrn
                        subst hrn
                        refine ⟨_, by rw [← hr1]; exact lkN, ?_⟩
                        show countOcc k (mergeNode n u).children = 1
                        rw [hmch]
                        exact hcount
                      · by_cases hr2 : np = r
                        · rw [← hr2, hnpn] at hrn
                          injection hrn with hrn
                          subst hrn
                          refine ⟨_, by rw [← hr2]; exact lkP, ?_⟩
                          show countOcc k (npn.children ++ [nodeId]) = 1
                          rw [countOcc_append]
                          have h0 : countOcc k [nodeId] = 0 := by
                            simp [countOcc, hkn]
                          omega
                        · by_cases hr3 : q = r
                          · rw [← hr3, hqn] at hrn
                            injection hrn with hrn
                            subst hrn
                            refine ⟨_, by rw [← hr3]; exact lkQ, ?_⟩
                            show countOcc k (filterOut nodeId qn.children) = 1
                            rw [countOcc_filterOut_other nodeId k (fun he => hkn he.symm)]
                            exact hcount
                          · refine ⟨rn, ?_, hcount⟩
                            rw [lkO r (fun he => hr1 he.symm) (fun he => hr2 he.symm)
                              (fun he => hr3 he.symm)]
                            exact hrn
                    · intro c hcmem
                      rcases (hc k w hk).2 c hcmem with ⟨cn, hcn, hcp⟩
                      by_cases hcn1 : nodeId = c
                      · rw [← hcn1, hn] at hcn
                        injection hcn with hcn
                        subst hcn
                        rw [hq] at hcp
                        injection hcp with hcp
                        exact absurd hcp hkq
                      · by_cases hcn2 : np = c
                        · rw [← hcn2, hnpn] at hcn
                          injection hcn with hcn
                          subst hcn
                          refine ⟨_, by rw [← hcn2]; exact lkP, ?_⟩
                          exact hcp
                        · by_cases hcn3 : q = c
                          · rw [← hcn3, hqn] at hcn
                            injection hcn with hcn
                            subst hcn
                            refine ⟨_, by rw [← hcn3]; exact lkQ, ?_⟩
                            exact hcp
                          · refine ⟨cn, ?_, hcp⟩
                            rw [lkO c (fun he => hcn1 he.symm) (fun he => hcn2 he.symm)
                              (fun he => hcn3 he.symm)]
                            exact hcn
            · -- only the root keeps a null parentId
              intro k w hk hpn0
              rw [hroot2]
              by_cases hkn : nodeId = k
              · subst hkn
                rw [lkN] at hk
                injection hk with hk
                subst hk
                rw [hmp] at hpn0
                exact Option.noConfusion hpn0
              · by_cases hkp : np = k
                · subst hkp
                  rw [lkP] at hk
                  injection hk with hk
                  subst hk
                  exact hr np npn hnpn hpn0
                · by_cases hkq : q = k
                  · subst hkq
                    rw [lkQ] at hk
                    injection hk with hk
                    subst hk
                    exact hr q qn hqn hpn0
                  · rw [lkO k (fun he => hkn he.symm) (fun he => hkp he.symm)
                      (fun he => hkq he.symm)] at hk
                    exact hr k w hk hpn0
            · -- acyclicity certificate
              refine ⟨fun k => if ReachR m.nodes nodeId k then hf k + (hf np + 1) else hf k, ?_⟩
              intro k w r rn hk hpid hrl
              by_cases hkn : nodeId = k
              · subst hkn
                rw [lkN] at hk
                injection hk with hk
                subst hk
                rw [hmp] at hpid
                injection hpid with hpid
                subst hpid
                simp only [if_pos ReachR.refl, if_neg hnpR]
                omega
              · have hold : ∃ wo, lookupN m.nodes k = some wo ∧ w.parentId = wo.parentId := by
                  by_cases hkp : np = k
                  · rw [← hkp] at hk ⊢
                    rw [lkP] at hk
                    injection hk with hk
                    exact ⟨npn, hnpn, by rw [← hk]⟩
                  · by_cases hkq : q = k
                    · rw [← hkq] at hk ⊢
                      rw [lkQ] at hk
                      injection hk with hk
                      exact ⟨qn, hqn, by rw [← hk]⟩
                    · rw [lkO k (fun he => hkn he.symm) (fun he => hkp he.symm)
                        (fun he => hkq he.symm)] at hk
                      exact ⟨w, hk, rfl⟩
                rcases hold with ⟨wo, hwo, hwop⟩
                have hpid2 : wo.parentId = some r := by rw [← hwop, hpid]
                rcases (hc k wo hwo).1 r hpid2 with ⟨rn0, hrn0, _⟩
                have hedge : hf r < hf k := hA k wo r rn0 hwo hpid2 hrn0
                by_cases hkR : ReachR m.nodes nodeId k
                · by_cases hrR : ReachR m.nodes nodeId r
                  · simp only [if_pos hkR, if_pos hrR]
                    omega
                  · simp only [if_pos hkR, if_neg hrR]
                    omega
                · have hrR : ¬ ReachR m.nodes nodeId r := by
                    intro hre
                    exact hkR (reach_of_parent_reach hc hwo hpid2 hre)
                  simp only [if_neg hkR, if_neg hrR]
                  omega
            · -- no node is keyed by the empty string
              rw [hnodes, lookupN_upsert_other _ _ _ _ hnidE,
                lookupN_upsert_other _ _ _ _ hnpe, lookupN_upsert_other _ _ _ _ hqe, hE]

/-! ### deleteNode preserves the invariants -/

theorem wInv_delete (m : MindMap) (nodeId : String) (dc : Bool) (m2 : MindMap)
    (hw : WInv m) (hE : lookupN m.nodes "" = none)
    (h : handleDeleteNode m nodeId dc = some m2) :
    WInv m2 ∧ lookupN m2.nodes "" = none := by
  obtain ⟨hnd, hc, hr, hf, hA⟩ := hw
  have hnd2 : KeysNodup m2.nodes := handleDeleteNode_keysNodup m nodeId dc m2 h hnd
  by_cases hroot : nodeId = m.rootId
  · rw [handleDeleteNode, if_pos hroot] at h
    injection h with h
    subst h
    exact ⟨⟨hnd, hc, hr, hf, hA⟩, hE⟩
  · cases hn : lookupN m.nodes nodeId with
    | none =>
      rw [handleDeleteNode, if_neg hroot, hn] at h
      exact absurd h (by simp)
    | some node =>
      cases dc with
      | true =>
        rw [handleDeleteNode_cascade m nodeId node hroot hn] at h
        rcases Option.bind_eq_some.mp h with ⟨nn, hnn, hfin⟩
        have hreach_none : ∀ k, ReachR m.nodes nodeId k → lookupN nn k = none := by
          intro k hk
          exact deleteList_reach_none m.nodes hnd (m.nodes.length + 1) [nodeId] m.nodes nn
            (List.Sublist.refl _) hnn nodeId (List.mem_cons_self _ _) k hk
        have hkeep : ∀ k, ¬ ReachR m.nodes nodeId k → lookupN nn k = lookupN m.nodes k := by
          intro k hk
          refine deleteList_not_reach m.nodes hnd (m.nodes.length + 1) [nodeId] m.nodes nn
            (List.Sublist.refl _) hnn k ?_
          intro c hcm
          rcases List.mem_cons.mp hcm with rfl | hc2
          · exact hk
          · simp at hc2
        rw [deleteFinal] at hfin
        split at hfin
        next hp => exact absurd (hr nodeId node hn hp) hroot
        next pid hp =>
          rcases (hc nodeId node hn).1 pid hp with ⟨pn0, hpn0, _⟩
          have hpidE : pid ≠ "" := by
            intro he
            rw [he, hE] at hpn0
            exact Option.noConfusion hpn0
          rw [if_neg hpidE] at hfin
          split at hfin
          next => exact absurd hfin (by simp)
          next parent hpl =>
            injection hfin with hfin
            have hpidR : ¬ ReachR m.nodes nodeId pid := by
              intro hre
              rw [hreach_none pid hre] at hpl
              exact Option.noConfusion hpl
            have hplm : lookupN m.nodes pid = some parent := by
              rw [← hkeep pid hpidR]
              exact hpl
            have hpidnid : pid ≠ nodeId := by
              intro he
              exact hpidR (by rw [he]; exact ReachR.refl)
            have hnodes : m2.nodes = upsert nn pid
                { parent with children := filterOut nodeId parent.children } := by
              rw [← hfin]
            have hroot2 : m2.rootId = m.rootId := by rw [← hfin]
            have lkPid : lookupN m2.nodes pid
                = some { parent with children := filterOut nodeId parent.children } := by
              rw [hnodes]
              exact lookupN_upsert_self _ _ _
            have lkO : ∀ k, k ≠ pid → lookupN m2.nodes k = lookupN nn k := by
              intro k hne
              rw [hnodes, lookupN_upsert_other _ _ _ _ (Ne.symm hne)]
            have hchar : ∀ k w, lookupN m2.nodes k = some w → k ≠ pid →
                ¬ ReachR m.nodes nodeId k ∧ lookupN m.nodes k = some w := by
              intro k w hk hne
              rw [lkO k hne] at hk
              have hkR : ¬ ReachR m.nodes nodeId k := by
                intro hre
                rw [hreach_none k hre] at hk
                exact Option.noConfusion hk
              exact ⟨hkR, by rw [← hkeep k hkR]; exact hk⟩
            refine ⟨⟨hnd2, ?_, ?_, ?_⟩, ?_⟩
            · -- consistency
              intro k w hk
              by_cases hkp : pid = k
              · subst hkp
                rw [lkPid] at hk
                injection hk with hk
                subst hk
                constructor
                · intro r hrp
                  have hrp2 : parent.parentId = some r := hrp
                  rcases (hc pid parent hplm).1 r hrp2 with ⟨rn, hrn, hcount⟩
                  have hrR : ¬ ReachR m.nodes nodeId r := by
                    intro hre
                    exact hpidR (ReachR.step hre hrn
                      (mem_of_countOcc_one pid rn.children hcount))
                  by_cases hr1 : pid = r
                  · rw [← hr1] at hrn ⊢
                    rw [hplm] at hrn
                    injection hrn with hrn
                    subst hrn
                    refine ⟨_, lkPid, ?_⟩
                    show countOcc pid (filterOut nodeId parent.children) = 1
                    rw [countOcc_filterOut_other nodeId pid hpidnid]
                    exact hcount
                  · refine ⟨rn, ?_, hcount⟩
                    rw [lkO r (fun he => hr1 he.symm), hkeep r hrR]
                    exact hrn
                · intro c hcmem
                  have hcmem2 : c ∈ filterOut nodeId parent.children := hcmem
                  rw [mem_filterOut] at hcmem2
                  obtain ⟨hmem, hcnid⟩ := hcmem2
                  rcases (hc pid parent hplm).2 c hmem with ⟨cn, hcn, hcp⟩
                  have hcR : ¬ ReachR m.nodes nodeId c := by
                    intro hre
                    exact hpidR (reach_parent hc hre hcnid hcn hcp)
                  by_cases hc1 : pid = c
                  · rw [← hc1] at hcn ⊢
                    rw [hplm] at hcn
                    injection hcn with hcn
                    subst hcn
                    exact ⟨_, lkPid, hcp⟩
                  · refine ⟨cn, ?_, hcp⟩
                    rw [lkO c (fun he => hc1 he.symm), hkeep c hcR]
                    exact hcn
              · rcases hchar k w hk (fun he => hkp he.symm) with ⟨hkR, hkm⟩
                have hknid : k ≠ nodeId := by
                  intro he
                  exact hkR (by rw [he]; exact ReachR.refl)
                constructor
                · intro r hrp
                  rcases (hc k w hkm).1 r hrp with ⟨rn, hrn, hcount⟩
                  have hrR : ¬ ReachR m.nodes nodeId r := by
                    intro hre
                    exact hkR (ReachR.step hre hrn
                      (mem_of_countOcc_one k rn.children hcount))
                  by_cases hr1 : pid = r
                  · rw [← hr1] at hrn ⊢
                    rw [hplm] at hrn
                    injection hrn with hrn
                    subst hrn
                    refine ⟨_, lkPid, ?_⟩
                    show countOcc k (filterOut nodeId parent.children) = 1
                    rw [countOcc_filterOut_other nodeId k hknid]
                    exact hcount
                  · refine ⟨rn, ?_, hcount⟩
                    rw [lkO r (fun he => hr1 he.symm), hkeep r hrR]
                    exact hrn
                · intro c hcmem
                  rcases (hc k w hkm).2 c hcmem with ⟨cn, hcn, hcp⟩
                  have hcnid : c ≠ nodeId := by
                    intro he
                    rw [he, hn] at hcn
                    injection hcn with hcn
                    subst hcn
                    rw [hp] at hcp
                    injection hcp with hcp
                    exact hkp hcp
                  have hcR : ¬ ReachR m.nodes nodeId c := by
                    intro hre
                    exact hkR (reach_parent hc hre hcnid hcn hcp)
                  by_cases hc1 : pid = c
                  · rw [← hc1] at hcn ⊢
                    rw [hplm] at hcn
                    injection hcn with hcn
                    subst hcn
                    exact ⟨_, lkPid, hcp⟩
                  · refine ⟨cn, ?_, hcp⟩
                    rw [lkO c (fun he => hc1 he.symm), hkeep c hcR]
                    exact hcn
            · -- only the root keeps a null parentId
              intro k w hk hpn0
              rw [hroot2]
              by_cases hkp : pid = k
              · subst hkp
                rw [lkPid] at hk
                injection hk with hk
                subst hk
                exact hr pid parent hplm hpn0
              · rcases hchar k w hk (fun he => hkp he.symm) with ⟨_, hkm⟩
                exact hr k w hkm hpn0
            · -- acyclicity: the old certificate still works
              refine ⟨hf, ?_⟩
              intro k w r rn hk hpid2 hrl
              have hold : ∃ wo, lookupN m.nodes k = some wo ∧ w.parentId = wo.parentId := by
                by_cases hkp : pid = k
                · rw [← hkp] at hk ⊢
                  rw [lkPid] at hk
                  injection hk with hk
                  exact ⟨parent, hplm, by rw [← hk]⟩
                · rcases hchar k w hk (fun he => hkp he.symm) with ⟨_, hkm⟩
                  exact ⟨w, hkm, rfl⟩
              rcases hold with ⟨wo, hwo, hwop⟩
              have hpid3 : wo.parentId = some r := by rw [← hwop, hpid2]
              rcases (hc k wo hwo).1 r hpid3 with ⟨rn0, hrn0, _⟩
              exact hA k wo r rn0 hwo hpid3 hrn0
            · -- no node is keyed by the empty string
              have hnnE : lookupN nn "" = none := by
                cases he2 : lookupN nn "" with
                | none => rfl
                | some v =>
                  have hx := lookupN_of_sublist (deleteList_sublist _ _ _ _ hnn) hnd he2
                  rw [hE] at hx
                  exact Option.noConfusion hx
              rw [hnodes, lookupN_upsert_other _ _ _ _ hpidE, hnnE]
      | false =>
        cases hpq : node.parentId with
        | none => exact absurd (hr nodeId node hn hpq) hroot
        | some q =>
          rcases (hc nodeId node hn).1 q hpq with ⟨qn, hqn, hqcount⟩
          have hqE : q ≠ "" := by
            intro he
            rw [he, hE] at hqn
            exact Option.noConfusion hqn
          rcases delete_promote_spec m nodeId q node qn
            (w_to_treeInv ⟨hnd, hc, hr, hf, hA⟩) hroot hn hpq hqE hqn with
            ⟨m2x, hdel2, hnone, hkids, ⟨qn2, hq2, hq2ch, hq2p, hq2cnt⟩, hframe, hroot2, hconn2⟩
          rw [h] at hdel2
          injection hdel2 with he
          subst he
          have hqid : q ≠ nodeId := by
            intro he2
            have hx := hA nodeId node q node hn hpq (by rw [he2]; exact hn)
            rw [he2] at hx
            omega
          have hid_not_child : nodeId ∉ node.children := by
            intro hmem
            rcases (hc nodeId node hn).2 nodeId hmem with ⟨cn, hcn, hcp⟩
            rw [hn] at hcn
            injection hcn with hcn
            subst hcn
            rw [hpq] at hcp
            injection hcp with hcp
            exact hqid hcp
          have hchp : ∀ c, c ∈ node.children → ∃ cn, lookupN m.nodes c = some cn ∧
              cn.parentId = some nodeId := fun c hmem => (hc nodeId node hn).2 c hmem
          have hkcount : ∀ c ∈ node.children, countOcc c node.children = 1 := by
            intro c hmem
            rcases hchp c hmem with ⟨cn, hcn, hcp⟩
            rcases (hc c cn hcn).1 nodeId hcp with ⟨pn, hpn, hcount⟩
            rw [hn] at hpn
            injection hpn with hpn
            subst hpn
            exact hcount
          have hdisj : ∀ x, x ∈ qn.children → x ∈ node.children → False := by
            intro x hx1 hx2
            rcases (hc q qn hqn).2 x hx1 with ⟨xn1, hxn1, hxp1⟩
            rcases hchp x hx2 with ⟨xn2, hxn2, hxp2⟩
            rw [hxn1] at hxn2
            injection hxn2 with hxn2
            subst hxn2
            rw [hxp1] at hxp2
            injection hxp2 with hxp2
            exact hqid hxp2
          have hcount_child_qn2 : ∀ c ∈ node.children, countOcc c qn2.children = 1 := by
            intro c hmem
            rw [hq2ch, countOcc_append]
            have h1 : countOcc c (filterOut nodeId qn.children) = 0 := by
              have hcnid : c ≠ nodeId := fun he2 => hid_not_child (he2 ▸ hmem)
              rw [countOcc_filterOut_other nodeId c hcnid]
              exact (countOcc_eq_zero c qn.children).mpr (fun hx => hdisj c hx hmem)
            rw [h1, hkcount c hmem]
          have hcount_old_qn2 : ∀ k, k ≠ nodeId → k ∉ node.children →
              countOcc k qn2.children = countOcc k qn.children := by
            intro k h1 h2
            rw [hq2ch, countOcc_append, countOcc_filterOut_other nodeId k h1,
              (countOcc_eq_zero k node.children).mpr h2]
            omega
          have h3cyc : ∀ r rn, lookupN m.nodes r = some rn → r ∈ node.children →
              qn.parentId = some r → False := by
            intro r rn hrn hmem hqp
            rcases hchp r hmem with ⟨rn2, hrn2, hrp⟩
            rw [hrn] at hrn2
            injection hrn2 with hrn2
            subst hrn2
            have hx1 := hA q qn r rn hqn hqp hrn
            have hx2 := hA r rn nodeId node hrn hrp hn
            have hx3 := hA nodeId node q qn hn hpq hqn
            omega
          refine ⟨⟨hnd2, ?_, ?_, ?_⟩, ?_⟩
          · -- consistency
            intro k w hk
            by_cases hk1 : nodeId = k
            · rw [← hk1, hnone] at hk
              exact Option.noConfusion hk
            · by_cases hk2 : q = k
              · rw [← hk2] at hk ⊢
                rw [hq2] at hk
                injection hk with hk
                subst hk
                constructor
                · intro r hrp
                  rw [hq2p] at hrp
                  rcases (hc q qn hqn).1 r hrp with ⟨rn, hrn, hcount⟩
                  by_cases hr1 : nodeId = r
                  · have hx1 := hA q qn nodeId node hqn (by rw [hrp, ← hr1]) hn
                    have hx2 := hA nodeId node q qn hn hpq hqn
                    omega
                  · by_cases hr2 : q = r
                    · have := hA q qn q qn hqn (by rw [hrp, ← hr2]) hqn
                      omega
                    · by_cases hr3 : r ∈ node.children
                      · exact (h3cyc r rn hrn hr3 hrp).elim
                      · refine ⟨rn, ?_, hcount⟩
                        rw [hframe r (fun he2 => hr1 he2.symm) (fun he2 => hr2 he2.symm) hr3]
                        exact hrn
                · intro c hcmem
                  rw [hq2ch] at hcmem
                  rcases List.mem_append.mp hcmem with hmem | hmem
                  · rw [mem_filterOut] at hmem
                    obtain ⟨hmem, hcnid⟩ := hmem
                    rcases (hc q qn hqn).2 c hmem with ⟨cn, hcn, hcp⟩
                    by_cases hc2 : q = c
                    · rw [← hc2] at hcn
                      rw [hqn] at hcn
                      injection hcn with hcn
                      subst hcn
                      have := hA q qn q qn hqn hcp hqn
                      omega
                    · by_cases hc3 : c ∈ node.children
                      · exact (hdisj c hmem hc3).elim
                      · refine ⟨cn, ?_, hcp⟩
                        rw [hframe c hcnid (fun he2 => hc2 he2.symm) hc3]
                        exact hcn
                  · rcases hchp c hmem with ⟨cn, hcn, hcp⟩
                    exact ⟨{ cn with parentId := some q }, hkids c cn hmem hcn, rfl⟩
              · by_cases hk3 : k ∈ node.children
                · rcases hchp k hk3 with ⟨kn, hkn, hkp⟩
                  rw [hkids k kn hk3 hkn] at hk
                  injection hk with hk
                  subst hk
                  constructor
                  · intro r hrp
                    have hrq : q = r := by
                      have hx : ({ kn with parentId := some q } : MindMapNode).parentId
                          = some q := rfl
                      rw [hx] at hrp
                      injection hrp with hrp
                    rw [← hrq]
                    exact ⟨qn2, hq2, hcount_child_qn2 k hk3⟩
                  · intro c hcmem
                    have hcmem2 : c ∈ kn.children := hcmem
                    rcases (hc k kn hkn).2 c hcmem2 with ⟨cn, hcn, hcp⟩
                    by_cases hc1 : nodeId = c
                    · rw [← hc1] at hcn
                      rw [hn] at hcn
                      injection hcn with hcn
                      subst hcn
                      rw [hpq] at hcp
                      injection hcp with hcp
                      exact (hk2 hcp).elim
                    · by_cases hc2 : q = c
                      · rw [← hc2] at hcn
                        rw [hqn] at hcn
                        injection hcn with hcn
                        subst hcn
                        exact (h3cyc k kn hkn hk3 hcp).elim
                      · by_cases hc3 : c ∈ node.children
                        · rcases hchp c hc3 with ⟨cn2, hcn2, hcp2⟩
                          rw [hcn] at hcn2
                          injection hcn2 with hcn2
                          subst hcn2
                          rw [hcp] at hcp2
                          injection hcp2 with hcp2
                          exact (hk1 hcp2.symm).elim
                        · refine ⟨cn, ?_, hcp⟩
                          rw [hframe c (fun he2 => hc1 he2.symm) (fun he2 => hc2 he2.symm) hc3]
                          exact hcn
                · rw [hframe k (fun he2 => hk1 he2.symm) (fun he2 => hk2 he2.symm) hk3] at hk
                  constructor
                  · intro r hrp
                    rcases (hc k w hk).1 r hrp with ⟨rn, hrn, hcount⟩
                    by_cases hr1 : nodeId = r
                    · rw [← hr1] at hrn
                      rw [hn] at hrn
                      injection hrn with hrn
                      subst hrn
                      exact absurd (mem_of_countOcc_one k node.children hcount) hk3
                    · by_cases hr2 : q = r
                      · rw [← hr2] at hrn ⊢
                        rw [hqn] at hrn
                        injection hrn with hrn
                        subst hrn
                        refine ⟨qn2, hq2, ?_⟩
                        rw [hcount_old_qn2 k (fun he2 => hk1 he2.symm) hk3]
                        exact hcount
                      · by_cases hr3 : r ∈ node.children
                        · rcases hchp r hr3 with ⟨rn2, hrn2, hrp2⟩
                          rw [hrn] at hrn2
                          injection hrn2 with hrn2
                          subst hrn2
                          refine ⟨{ rn with parentId := some q }, hkids r rn hr3 hrn, ?_⟩
                          show countOcc k rn.children = 1
                          exact hcount
                        · refine ⟨rn, ?_, hcount⟩
                          rw [hframe r (fun he2 => hr1 he2.symm) (fun he2 => hr2 he2.symm) hr3]
                          exact hrn
                  · intro c hcmem
                    rcases (hc k w hk).2 c hcmem with ⟨cn, hcn, hcp⟩
                    by_cases hc1 : nodeId = c
                    · rw [← hc1] at hcn
                      rw [hn] at hcn
                      injection hcn with hcn
                      subst hcn
                      rw [hpq] at hcp
                      injection hcp with hcp
                      exact (hk2 hcp).elim
                    · by_cases hc2 : q = c
                      · rw [← hc2] at hcn ⊢
                        rw [hqn] at hcn
                        injection hcn with hcn
                        subst hcn
                        refine ⟨qn2, hq2, ?_⟩
                        rw [hq2p]
                        exact hcp
                      · by_cases hc3 : c ∈ node.children
                        · rcases hchp c hc3 with ⟨cn2, hcn2, hcp2⟩
                          rw [hcn] at hcn2
                          injection hcn2 with hcn2
                          subst hcn2
                          rw [hcp] at hcp2
                          injection hcp2 with hcp2
                          exact (hk1 hcp2.symm).elim
                        · refine ⟨cn, ?_, hcp⟩
                          rw [hframe c (fun he2 => hc1 he2.symm) (fun he2 => hc2 he2.symm) hc3]
                          exact hcn
          · -- only the root keeps a null parentId
            intro k w hk hpn0
            rw [hroot2]
            by_cases hk1 : nodeId = k
            · rw [← hk1, hnone] at hk
              exact Option.noConfusion hk
            · by_cases hk2 : q = k
              · rw [← hk2] at hk ⊢
                rw [hq2] at hk
                injection hk with hk
                subst hk
                rw [hq2p] at hpn0
                exact hr q qn hqn hpn0
              · by_cases hk3 : k ∈ node.children
                · rcases hchp k hk3 with ⟨kn, hkn, hkp⟩
                  rw [hkids k kn hk3 hkn] at hk
                  injection hk with hk
                  subst hk
                  have hx : ({ kn with parentId := some q } : MindMapNode).parentId
                      = some q := rfl
                  rw [hx] at hpn0
                  exact Option.noConfusion hpn0
                · rw [hframe k (fun he2 => hk1 he2.symm) (fun he2 => hk2 he2.symm) hk3] at hk
                  exact hr k w hk hpn0
          · -- acyclicity: the old certificate still works
            refine ⟨hf, ?_⟩
            intro k w r rn hk hpid2 hrl
            by_cases hk1 : nodeId = k
            · rw [← hk1, hnone] at hk
              exact Option.noConfusion hk
            · by_cases hk2 : q = k
              · rw [← hk2] at hk ⊢
                rw [hq2] at hk
                injection hk with hk
                subst hk
                rw [hq2p] at hpid2
                rcases (hc q qn hqn).1 r hpid2 with ⟨rn0, hrn0, _⟩
                exact hA q qn r rn0 hqn hpid2 hrn0
              · by_cases hk3 : k ∈ node.children
                · rcases hchp k hk3 with ⟨kn, hkn, hkp⟩
                  rw [hkids k kn hk3 hkn] at hk
                  injection hk with hk
                  subst hk
                  have hrpq : some q = some r := hpid2
                  injection hrpq with hrpq
                  rw [← hrpq]
                  have hx1 := hA k kn nodeId node hkn hkp hn
                  have hx2 := hA nodeId node q qn hn hpq hqn
                  omega
                · rw [hframe k (fun he2 => hk1 he2.symm) (fun he2 => hk2 he2.symm) hk3] at hk
                  rcases (hc k w hk).1 r hpid2 with ⟨rn0, hrn0, _⟩
                  exact hA k w r rn0 hk hpid2 hrn0
          · -- no node is keyed by the empty string
            have hnidE : nodeId ≠ "" := by
              intro he
              rw [he, hE] at hn
              exact Option.noConfusion hn
            have hchE : "" ∉ node.children := by
              intro hmem
              rcases hchp "" hmem with ⟨cn, hcn, _⟩
              rw [hE] at hcn
              exact Option.noConfusion hcn
            rw [hframe "" (fun he => hnidE he.symm) (fun he => hqE he.symm) hchE, hE]

/-! ### The per-operation step lemma and the sequence induction -/

theorem wInv_goodOp (m : MindMap) (op : MMOp) (hw : WInv m)
    (hE : lookupN m.nodes "" = none) (hg : GoodOp m op) :
    WInv (applyOp m op) ∧ lookupN (applyOp m op).nodes "" = none := by
  cases op with
  | addChild p nid =>
    obtain ⟨hfresh, hne0⟩ := hg
    simp only [applyOp, rawApply]
    cases he : handleAddChild m p nid with
    | none => exact ⟨hw, hE⟩
    | some m2 => exact wInv_addChild m p nid m2 hw hE hfresh hne0 he
  | update nodeId u =>
    obtain ⟨hs, hpres, hcyc⟩ := hg
    simp only [applyOp, rawApply]
    cases he : handleUpdateNode m nodeId u with
    | none => exact ⟨hw, hE⟩
    | some m2 =>
      cases hn : lookupN m.nodes nodeId with
      | none => exact absurd hn hpres
      | some n => exact wInv_update m nodeId u m2 hw hs hE hcyc n hn he
  | delete nodeId c =>
    simp only [applyOp, rawApply]
    cases he : handleDeleteNode m nodeId c with
    | none => exact ⟨hw, hE⟩
    | some m2 => exact wInv_delete m nodeId c m2 hw hE he

theorem wInv_goodSeq (m : MindMap) (ops : List MMOp) (hw : WInv m)
    (hE : lookupN m.nodes "" = none) (hg : GoodSeq m ops) :
    WInv (applyOps m ops) ∧ lookupN (applyOps m ops).nodes "" = none := by
  induction ops generalizing m with
  | nil => exact ⟨hw, hE⟩
  | cons op rest ih =>
    obtain ⟨h1, h2⟩ := hg
    obtain ⟨hw2, hE2⟩ := wInv_goodOp m op hw hE h1
    exact ih (applyOp m op) hw2 hE2 h2

/-! ## Claim C1 -/

/-- An update object that only replaces the children list. -/
def emptyChildrenUpd : NodeUpdates := { noUpdates with childrenField := some [] }

/-- C1 (counterexample): the chain r → a → b satisfies the tree
invariants, yet the single operation updateNode("r", {children: []}) —
accepted by the source without any validation — leaves a's parentId
pointing at r while r's children list no longer holds a: bidirectional
consistency is broken by one updateNode call. -/
theorem c1_counterexample :
    TreeInv mChain ∧
    ¬ Consistent (applyOps mChain [MMOp.update "r" emptyChildrenUpd]).nodes := by
  refine ⟨⟨?_, ?_, ?_, ⟨fun k => if k = "r" then 0 else if k = "a" then 1 else 2, ?_⟩⟩, ?_⟩
    <;> decide

/-- C1 (amended): on a map with no node keyed by the empty string,
bidirectional parent/child consistency is preserved by every sequence of
operations in which each updateNode targets a present node, never
overwrites the children list, never nulls the parentId or sets it to the
empty string (which the source's falsy guards silently mishandle) and
never reparents a node under itself or one of its descendants, and each
addChild's generated id is fresh and non-empty; deleteNode is
unrestricted. -/
theorem c1_amended (m : MindMap) (ops : List MMOp)
    (hinv : TreeInv m) (hE : lookupN m.nodes "" = none) (hg : GoodSeq m ops) :
    Consistent (applyOps m ops).nodes := by
  obtain ⟨hw, _⟩ := wInv_goodSeq m ops (treeInv_to_W hinv) hE hg
  exact L_to_consistent hw.1 hw.2.1

/-- An update object that only sets the text. -/
def textUpd : NodeUpdates := { noUpdates with textField := some "hi" }

/-- A concrete good sequence on the chain: add a child under b, rename b,
then delete a without cascade. -/
def c1ops : List MMOp :=
  [MMOp.addChild "b" "c", MMOp.update "b" textUpd, MMOp.delete "a" false]

/-- Witness for C1 (amended) on the chain r → a → b. -/
theorem c1_amended_witness :
    TreeInv mChain ∧ lookupN mChain.nodes "" = none ∧ GoodSeq mChain c1ops ∧
    Consistent (applyOps mChain c1ops).nodes := by
  have hinv : TreeInv mChain := ⟨by decide, by decide, by decide,
    ⟨fun k => if k = "r" then 0 else if k = "a" then 1 else 2, by decide⟩⟩
  have hE : lookupN mChain.nodes "" = none := by decide
  have hgs : GoodSeq mChain c1ops := by
    refine ⟨⟨(by decide : lookupN mChain.nodes "c" = none), by decide⟩,
      ⟨(by decide : textUpd.childrenField = none ∧ textUpd.parentIdField ≠ some none),
        by decide, ?_⟩, trivial, trivial⟩
    intro np he
    exact Option.noConfusion he
  exact ⟨hinv, hE, hgs, c1_amended mChain c1ops hinv hE hgs⟩
